import Mathlib

/-!
# LifeTrackerSystemJournal: the persistence and analytics layer of `app.js`

A shallow embedding of `src/app.js`, and what it does.

* The IndexedDB database is a value of type `DB`: three object stores, each
  the list of its records in ascending key order (the order in which `getAll`
  and a cursor deliver them), and the key generator of the `habits` store.
* Every asynchronous function of the source is a function on that value.  A
  request placed on a transaction that is active reaches its store.  Every
  function but `importData` places its requests in the task that opens the
  transaction, or in the handler of an earlier request of it; `importData`
  keeps two transactions across `await`s that belong to other transactions,
  and its later requests on them throw a `TransactionInactiveError`.  Of the
  other errors of a request the `ConstraintError` of `add` on a key that is
  taken is modelled.
* JavaScript values are primitives, arrays of primitives and plain objects;
  an object is the list of its own properties, under ordinary string keys.
* A date string `YYYY-MM-DD` is the triple of its fields, ordered as the
  strings are; `new Date(s)` is midnight UTC of that day.  The host time zone
  is a parameter: `setDate` steps a `Date` in local time.
* The clock is a parameter: `today` for the streak, `now` for the export.
-/

namespace LifeTracker

/-! ## JavaScript values -/

/-- Primitive JavaScript values.  Numbers are integers, with `NaN` apart. -/
inductive Prim where
  | undefined
  | null
  | bool (b : Bool)
  | num (n : Int)
  | nan
  | str (s : String)
  deriving DecidableEq, Repr

/-- The values a record field or a preference holds: a primitive, an array of
primitives or a plain object of primitives. -/
inductive JSVal where
  | prim (p : Prim)
  | arr (items : List Prim)
  | obj (fields : List (String × Prim))
  deriving DecidableEq, Repr

/-- Truthiness of a primitive (`ToBoolean`): `undefined`, `null`, `false`,
`0`, `NaN` and `''` are falsy. -/
def Prim.truthy : Prim → Bool
  | .undefined => false
  | .null => false
  | .bool b => b
  | .num n => n != 0
  | .nan => false
  | .str s => s != ""

/-- Truthiness of a value: arrays and objects are always truthy. -/
def JSVal.truthy : JSVal → Bool
  | .prim p => p.truthy
  | .arr _ => true
  | .obj _ => true

/-- The value `undefined`. -/
def JSVal.undefined : JSVal := .prim .undefined

/-- The value `null`. -/
def JSVal.null : JSVal := .prim .null

/-- The operator `a || b`: `a` when it is truthy, `b` otherwise. -/
def jsOr (a b : JSVal) : JSVal := if a.truthy then a else b

/-- A plain object: its own properties in order, keys are strings. -/
abbrev Obj := List (String × JSVal)

/-- Own-property test `k in o`. -/
def Obj.has (o : Obj) (k : String) : Bool := o.any (fun p => p.1 == k)

/-- Property read `o[k]`: `undefined` when `o` has no property `k`. -/
def Obj.get (o : Obj) (k : String) : JSVal :=
  match o.lookup k with
  | some v => v
  | none => JSVal.undefined

/-- Property write `o[k] = v`: overwrites in place, or appends a new property. -/
def Obj.set : Obj → String → JSVal → Obj
  | [], k, v => [(k, v)]
  | (k0, v0) :: rest, k, v =>
    if k0 = k then (k, v) :: rest else (k0, v0) :: Obj.set rest k v

/-- The statement `delete o[k]`. -/
def Obj.delete (o : Obj) (k : String) : Obj := o.filter (fun p => p.1 != k)

/-- Object spread `{ ...a, ...b }`: the properties of `a`, then each property
of `b` written over them in order. -/
def Obj.spread (a b : Obj) : Obj := b.foldl (fun acc p => Obj.set acc p.1 p.2) a

/-! ## Calendar dates

An entry's `date` is a string in the canonical form `YYYY-MM-DD`.  Such a
string is represented by its three numeric fields; comparing two canonical
strings character by character is comparing the fields lexicographically.
-/

/-- A date string `YYYY-MM-DD`, by its fields. -/
structure Date where
  year : Int
  month : Int
  day : Int
  deriving DecidableEq, Repr

/-- Leap years of the proleptic Gregorian calendar. -/
def isLeap (y : Int) : Prop := (y % 4 = 0 ∧ y % 100 ≠ 0) ∨ y % 400 = 0

instance (y : Int) : Decidable (isLeap y) := by
  unfold isLeap; infer_instance

/-- Number of days of month `m` in year `y`. -/
def daysInMonth (y m : Int) : Int :=
  if m = 2 then (if isLeap y then 29 else 28)
  else if m = 4 ∨ m = 6 ∨ m = 9 ∨ m = 11 then 30
  else 31

/-- A month from 1 to 12 and a day that exists in it. -/
def Date.WellFormed (d : Date) : Prop :=
  1 ≤ d.month ∧ d.month ≤ 12 ∧ 1 ≤ d.day ∧ d.day ≤ daysInMonth d.year d.month

/-- The canonical dates: well formed, with a year of four digits. -/
def Date.Valid (d : Date) : Prop :=
  0 ≤ d.year ∧ d.year ≤ 9999 ∧ d.WellFormed

instance (d : Date) : Decidable d.WellFormed := by
  unfold Date.WellFormed; infer_instance

instance (d : Date) : Decidable d.Valid := by
  unfold Date.Valid; infer_instance

/-- Strict string order on canonical dates. -/
def Date.lt (a b : Date) : Prop :=
  a.year < b.year ∨ (a.year = b.year ∧
    (a.month < b.month ∨ (a.month = b.month ∧ a.day < b.day)))

/-- String order on canonical dates. -/
def Date.le (a b : Date) : Prop :=
  a.year < b.year ∨ (a.year = b.year ∧
    (a.month < b.month ∨ (a.month = b.month ∧ a.day ≤ b.day)))

instance Date.decLt (a b : Date) : Decidable (Date.lt a b) := by
  unfold Date.lt; infer_instance

instance Date.decLe (a b : Date) : Decidable (Date.le a b) := by
  unfold Date.le; infer_instance

instance : LinearOrder Date where
  le := Date.le
  lt := Date.lt
  le_refl a := by show Date.le a a; unfold Date.le; omega
  le_trans a b c := by
    show Date.le a b → Date.le b c → Date.le a c
    simp only [Date.le]; omega
  lt_iff_le_not_le a b := by
    show Date.lt a b ↔ Date.le a b ∧ ¬ Date.le b a
    simp only [Date.le, Date.lt]; omega
  le_antisymm a b := by
    show Date.le a b → Date.le b a → a = b
    cases a; cases b
    simp only [Date.le, Date.mk.injEq]; omega
  le_total a b := by
    show Date.le a b ∨ Date.le b a
    simp only [Date.le]; omega
  decidableLE := Date.decLe
  decidableLT := Date.decLt
  decidableEq := inferInstance

/-- Day number of 1 January of year `y`, counted from 1970-01-01
(`DayFromYear` of ECMAScript). -/
def dayFromYear (y : Int) : Int :=
  365 * (y - 1970) + (y - 1969) / 4 - (y - 1901) / 100 + (y - 1601) / 400

/-- Days of year `y` that precede its month `m`. -/
def daysBeforeMonth (y m : Int) : Int :=
  (if m = 1 then 0 else if m = 2 then 31 else if m = 3 then 59
   else if m = 4 then 90 else if m = 5 then 120 else if m = 6 then 151
   else if m = 7 then 181 else if m = 8 then 212 else if m = 9 then 243
   else if m = 10 then 273 else if m = 11 then 304 else 334)
  + (if isLeap y ∧ 2 < m then 1 else 0)

/-- The day number of a date: `new Date('YYYY-MM-DD')` is midnight UTC of
that day, its time value is `epochDay * 86400000`. -/
def epochDay (d : Date) : Int :=
  dayFromYear d.year + daysBeforeMonth d.year d.month + (d.day - 1)

/-- The time value of `new Date('YYYY-MM-DD')`, in milliseconds. -/
def utcMillis (d : Date) : Int := epochDay d * 86400000

/-- The date string of the previous calendar day. -/
def prevDay (d : Date) : Date :=
  if 1 < d.day then { d with day := d.day - 1 }
  else if 1 < d.month then
    { d with month := d.month - 1, day := daysInMonth d.year (d.month - 1) }
  else { year := d.year - 1, month := 12, day := 31 }

/-- The date string of the next calendar day. -/
def nextDay (d : Date) : Date :=
  if d.day < daysInMonth d.year d.month then { d with day := d.day + 1 }
  else if d.month < 12 then { d with month := d.month + 1, day := 1 }
  else { year := d.year + 1, month := 1, day := 1 }

/-- The date string of the calendar day `n` days after `d` (before `d`, for a
negative `n`): the date whose day number is `epochDay d + n`. -/
def shiftDay (d : Date) (n : Int) : Date :=
  if 0 ≤ n then nextDay^[n.toNat] d else prevDay^[(-n).toNat] d

/-! ## The host time zone

`getDate` and `setDate` work on local time, which ECMAScript leaves to the
host: `LocalTime(t) = t + offsetAt t` for a time value `t`, and `UTC(l)` is
`utcOf l` for a local time value `l`, both in milliseconds.
-/

/-- The time zone of the host. -/
structure TimeZone where
  offsetAt : Int → Int
  utcOf : Int → Int

/-- A zone that keeps one offset from UTC at all times. -/
def TimeZone.Fixed (zone : TimeZone) : Prop :=
  ∃ c, (∀ t, zone.offsetAt t = c) ∧ ∀ l, zone.utcOf l = l - c

/-- The statements `const date = new Date(checkDate);
date.setDate(date.getDate() - 1); checkDate = date.toISOString().split('T')[0]`:
the time value of `checkDate` is midnight UTC, `setDate` takes one day off its
local time and converts back, and the new `checkDate` is the date of the UTC
day the outcome falls in. -/
def stepBack (zone : TimeZone) (checkDate : Date) : Date :=
  let t := utcMillis checkDate
  let localTime := t + zone.offsetAt t
  let u := zone.utcOf (localTime - 86400000)
  shiftDay checkDate (u / 86400000 - epochDay checkDate)

/-- The zone UTC. -/
def utcZone : TimeZone := { offsetAt := fun _ => 0, utcOf := fun l => l }

/-- The end of daylight-saving time of 2024 in the zone America/New_York:
2024-11-03T06:00:00Z. -/
def newYorkFallBack : Int := utcMillis ⟨2024, 11, 3⟩ + 6 * 3600000

/-- The zone America/New_York about the autumn of 2024: four hours behind UTC
before `newYorkFallBack` and five hours behind from then on; a local time
that occurs twice is taken as the earlier of the two. -/
def newYorkZone : TimeZone :=
  { offsetAt := fun t => if t < newYorkFallBack then -(4 * 3600000) else -(5 * 3600000)
    utcOf := fun l =>
      if l < newYorkFallBack - 4 * 3600000 then l + 4 * 3600000 else l + 5 * 3600000 }

/-! ## Records and object stores -/

/-- A record of the `habits` store (key path `id`, auto-increment). -/
structure Habit where
  id : Nat
  name : String
  createdAt : String
  deriving DecidableEq, Repr

/-- A habit object handed to `add`: its `id` may be missing. -/
structure HabitRecord where
  id : Option Nat
  name : String
  createdAt : String
  deriving DecidableEq, Repr

/-- A record of the `entries` store (key path `date`).  `habitCompletions`
is `none` when the property is missing, `undefined` or `null`. -/
structure Entry where
  date : Date
  mood : JSVal
  highlight : JSVal
  journal : JSVal
  screenTime : JSVal
  weight : JSVal
  habitCompletions : Option Obj
  deriving DecidableEq, Repr

/-- The `entryData` argument of `saveEntry`; a property left unset reads as
`undefined` (`none` for `habitCompletions`). -/
structure EntryData where
  mood : JSVal := JSVal.undefined
  highlight : JSVal := JSVal.undefined
  journal : JSVal := JSVal.undefined
  screenTime : JSVal := JSVal.undefined
  weight : JSVal := JSVal.undefined
  habitCompletions : Option Obj := none
  deriving DecidableEq, Repr

/-- A record of the `preferences` store (key path `key`). -/
structure Pref where
  key : String
  value : JSVal
  deriving DecidableEq, Repr

/-- The database: the records of each object store in ascending key order,
and the current number of the key generator of `habits`. -/
structure DB where
  habits : List Habit
  habitKeyGen : Nat
  entries : List Entry
  preferences : List Pref
  deriving DecidableEq, Repr

/-- A database as `initDB` creates it: three empty stores, key generator 1. -/
def DB.empty : DB := { habits := [], habitKeyGen := 1, entries := [], preferences := [] }

/-- Errors a request of an object store raises: the `ConstraintError` of an
`add` on a key that is taken, and the `TransactionInactiveError` of a request
placed on a transaction that is not active. -/
inductive StoreError where
  | constraintError
  | transactionInactive
  deriving DecidableEq, Repr

/-- Whether a transaction takes requests.  A transaction is active in the
task that opens it and while the handlers of its requests run (the code that
follows an `await` on one of its requests included); once none of its
requests is pending it commits, and it has finished from then on. -/
inductive TxState where
  | active
  | finished
  deriving DecidableEq, Repr

/-- A request placed on a transaction: it throws a `TransactionInactiveError`
when the transaction has finished and gives its outcome `r` otherwise. -/
def TxState.request {α : Type} (tx : TxState) (r : Except StoreError α) :
    Except StoreError α :=
  match tx with
  | .active => r
  | .finished => .error .transactionInactive

/-- Failures of `importData`: its own `Error('Invalid import format')`, or
the error of a store request. -/
inductive ImportError where
  | invalidFormat
  | store (e : StoreError)
  deriving DecidableEq, Repr

section Store

variable {κ α : Type} [LinearOrder κ] [DecidableEq κ]

/-- Request `put(r)`: stores `r` at its key, over a record of the same key. -/
def Store.put (key : α → κ) (r : α) : List α → List α
  | [] => [r]
  | x :: xs =>
    if key r < key x then r :: x :: xs
    else if key x < key r then x :: Store.put key r xs
    else r :: xs

/-- Request `get(k)`. -/
def Store.get (key : α → κ) (k : κ) (l : List α) : Option α :=
  l.find? (fun x => decide (key x = k))

/-- Request `delete(k)`. -/
def Store.delete (key : α → κ) (k : κ) (l : List α) : List α :=
  l.filter (fun x => !decide (key x = k))

/-- Request `add(r)`: as `put`, but a `ConstraintError` when the key is taken. -/
def Store.add (key : α → κ) (r : α) (l : List α) : Except StoreError (List α) :=
  if l.any (fun x => decide (key x = key r)) then .error .constraintError
  else .ok (Store.put key r l)

/-- The records of a store are in strictly ascending key order. -/
def Store.Ordered (key : α → κ) (l : List α) : Prop :=
  l.Pairwise (fun a b => key a < key b)

instance Store.decOrdered (key : α → κ) (l : List α) : Decidable (Store.Ordered key l) := by
  unfold Store.Ordered; infer_instance

end Store

/-- All three stores are in strictly ascending key order. -/
def DB.WF (db : DB) : Prop :=
  Store.Ordered Habit.id db.habits ∧ Store.Ordered Entry.date db.entries ∧
    Store.Ordered Pref.key db.preferences

instance (db : DB) : Decidable db.WF := by
  unfold DB.WF; infer_instance

/-! ## Habit repository -/

/-- The property key a habit id is used as: `String(habitId)`. -/
def propKey (habitId : Nat) : String := toString habitId

/-- The test `e.habitCompletions && e.habitCompletions[habitId]`. -/
def Entry.completed (e : Entry) (habitId : Nat) : Bool :=
  match e.habitCompletions with
  | none => false
  | some o => (o.get (propKey habitId)).truthy

/-- From `getHabits()`: all records of the `habits` store. -/
def getHabits (db : DB) : List Habit := db.habits

/-- The request `add(habit)` on the `habits` store.  The store has key path
`id` and a key generator: a record that carries an `id` is stored under it
(and the generator moves past it), a record without one gets the generator's
current number. -/
def addHabitRecord (db : DB) (h : HabitRecord) : Except StoreError DB :=
  match h.id with
  | some id =>
    match Store.add Habit.id { id := id, name := h.name, createdAt := h.createdAt } db.habits with
    | .ok hs => .ok { db with habits := hs, habitKeyGen := max db.habitKeyGen (id + 1) }
    | .error e => .error e
  | none =>
    match Store.add Habit.id
        { id := db.habitKeyGen, name := h.name, createdAt := h.createdAt } db.habits with
    | .ok hs => .ok { db with habits := hs, habitKeyGen := db.habitKeyGen + 1 }
    | .error e => .error e

/-- From `removeHabitFromEntries(habitId)`: the cursor visits every entry; where
`entry.habitCompletions && entry.habitCompletions[habitId]` is truthy the key
is deleted and the entry written back at the cursor. -/
def removeHabitFromEntries (db : DB) (habitId : Nat) : DB :=
  { db with entries := db.entries.map (fun entry =>
      match entry.habitCompletions with
      | some o =>
        if (o.get (propKey habitId)).truthy then
          { entry with habitCompletions := some (o.delete (propKey habitId)) }
        else entry
      | none => entry) }

/-- From `deleteHabit(id)`: deletes the habit record, then removes the habit
from the entries. -/
def deleteHabit (db : DB) (id : Nat) : DB :=
  removeHabitFromEntries { db with habits := Store.delete Habit.id id db.habits } id

/-! ## Entry repository -/

/-- From `saveEntry(date, entryData)`: builds the record with `||` defaults and
puts it. -/
def saveEntry (db : DB) (date : Date) (entryData : EntryData) : DB :=
  let entry : Entry :=
    { date := date
      mood := jsOr entryData.mood JSVal.null
      highlight := jsOr entryData.highlight (.prim (.str ""))
      journal := jsOr entryData.journal (.prim (.str ""))
      screenTime := jsOr entryData.screenTime JSVal.null
      weight := jsOr entryData.weight JSVal.null
      habitCompletions := some (entryData.habitCompletions.getD []) }
  { db with entries := Store.put Entry.date entry db.entries }

/-- From `getEntry(date)`: the record, or `null` (`none`). -/
def getEntry (db : DB) (date : Date) : Option Entry :=
  Store.get Entry.date date db.entries

/-- From `getAllEntries()`: all records of the `entries` store. -/
def getAllEntries (db : DB) : List Entry := db.entries

/-! ## Preferences repository -/

/-- The `defaults` object of `getPreferences`. -/
def defaultPreferences : Obj :=
  [ ("showScreenTime", .prim (.bool false)),
    ("showWeight", .prim (.bool false)),
    ("showHabits", .prim (.bool false)),
    ("promptMoodOnOpen", .prim (.bool true)),
    ("userName", .prim (.str "")),
    ("topHabits", .arr [.null, .null, .null]),
    ("theme", .prim (.str "light")),
    ("habitOrder", .arr []) ]

/-- The object `prefs` that `getPreferences` folds the stored pairs into. -/
def storedPreferences (items : List Pref) : Obj :=
  items.foldl (fun prefs item => Obj.set prefs item.key item.value) []

/-- From `getPreferences()`: `{ ...defaults, ...prefs }`. -/
def getPreferences (db : DB) : Obj :=
  Obj.spread defaultPreferences (storedPreferences db.preferences)

/-- From `setPreference(key, value)`: puts the pair. -/
def setPreference (db : DB) (key : String) (value : JSVal) : DB :=
  { db with preferences := Store.put Pref.key { key := key, value := value } db.preferences }

/-- From `setPreferences(prefs)`: one `setPreference` per property, in the order
of `Object.entries`. -/
def setPreferences (db : DB) (prefs : Obj) : DB :=
  prefs.foldl (fun db p => setPreference db p.1 p.2) db

/-! ## Backup service -/

/-- A backup document.  `habits`, `entries` and `preferences` are `none` when
the property is missing; a list or an object is always truthy. -/
structure BackupDoc where
  version : Int
  exportDate : String
  habits : Option (List HabitRecord)
  entries : Option (List Entry)
  preferences : Option Obj
  deriving DecidableEq, Repr

/-- From `exportData()`, at the time stamp `now`. -/
def exportData (db : DB) (now : String) : BackupDoc :=
  { version := 2
    exportDate := now
    habits := some ((getHabits db).map
      (fun h => { id := some h.id, name := h.name, createdAt := h.createdAt }))
    entries := some (getAllEntries db)
    preferences := some (getPreferences db) }

/-- The loop `for (const habit of json.habits) await add(habit)`, its requests
placed on a transaction in the state `tx`: stops at the first request that
fails. -/
def importHabits (tx : TxState) (db : DB) : List HabitRecord → Except StoreError DB
  | [] => .ok db
  | habit :: rest =>
    match tx.request (addHabitRecord db habit) with
    | .ok db1 => importHabits tx db1 rest
    | .error e => .error e

/-- The loop `for (const entry of json.entries) await put(entry)`, its
requests placed on a transaction in the state `tx`. -/
def importEntries (tx : TxState) (db : DB) : List Entry → Except StoreError DB
  | [] => .ok db
  | entry :: rest =>
    match tx.request (.ok { db with entries := Store.put Entry.date entry db.entries }) with
    | .ok db1 => importEntries tx db1 rest
    | .error e => .error e

/-- From `importData(json)`.  Each of the three transactions is opened and at
once given its `clear()` request, which succeeds.  `habitsTransaction` has no
request pending once its `clear()` has completed, nor has
`entriesTransaction`: when the loops start, after the `clear()` of the
preferences has been awaited, both have finished.  `setPreferences` opens
transactions of its own. -/
def importData (db : DB) (json : BackupDoc) : Except ImportError DB :=
  match json.habits, json.entries with
  | some habits, some entries =>
    let db := { db with habits := [] }
    let db := { db with entries := [] }
    let db := { db with preferences := [] }
    match importHabits .finished db habits with
    | .error e => .error (.store e)
    | .ok db =>
      match importEntries .finished db entries with
      | .error e => .error (.store e)
      | .ok db =>
        match json.preferences with
        | some prefs => .ok (setPreferences db prefs)
        | none => .ok db
  | _, _ => .error .invalidFormat

/-! ## Analytics: streaks -/

/-- The result `{ current, longest }` of `calculateHabitStreak`. -/
structure Streak where
  current : Nat
  longest : Nat
  deriving DecidableEq, Repr

/-- The first loop of `calculateHabitStreak`: counts the entries that match
`checkDate`, which steps back at each match; stops at the first entry that
does not match. -/
def currentStreakLoop (zone : TimeZone) : List Date → Date → Nat → Nat
  | [], _, currentStreak => currentStreak
  | entryDate :: rest, checkDate, currentStreak =>
    if entryDate = checkDate then
      currentStreakLoop zone rest (stepBack zone checkDate) (currentStreak + 1)
    else currentStreak

/-- The second loop of `calculateHabitStreak`, at index `i`: `prev` is
`sortedEntries[i - 1]` and the list is `sortedEntries` from `i` on. -/
def longestStreakLoop : Date → List Date → Nat → Nat → Nat
  | _, [], _, longestStreak => longestStreak
  | prev, curr :: rest, currentLongest, longestStreak =>
    if (utcMillis prev - utcMillis curr) / (1000 * 60 * 60 * 24) = 1 then
      longestStreakLoop curr rest (currentLongest + 1)
        (max longestStreak (currentLongest + 1))
    else longestStreakLoop curr rest 1 longestStreak

/-- The dates `sortedEntries` of `calculateHabitStreak`: completed entries,
their dates, sorted and reversed. -/
def completedDatesDesc (entries : List Entry) (habitId : Nat) : List Date :=
  (((entries.filter (fun e => e.completed habitId)).map (fun e => e.date)).insertionSort
    (fun a b => a ≤ b)).reverse

/-- From `calculateHabitStreak(habitId)`, on a host in the time zone `zone`,
over the entries of `getAllEntries()`, `today` being the date part of
`new Date().toISOString()`. -/
def calculateHabitStreak (zone : TimeZone) (entries : List Entry) (habitId : Nat)
    (today : Date) : Streak :=
  let sortedEntries := completedDatesDesc entries habitId
  match sortedEntries with
  | [] => { current := 0, longest := 0 }
  | first :: rest =>
    { current := currentStreakLoop zone sortedEntries today 0
      longest := longestStreakLoop first rest 1 1 }

/-! ## Streaks, as the specification words them -/

/-- The calendar day `i` days before `d`. -/
def daysBack (d : Date) (i : Nat) : Date := prevDay^[i] d

/-- The habit is completed on `d`: `d` is the date of an entry whose
`habitCompletions[habitId]` is truthy. -/
def completedOn (entries : List Entry) (habitId : Nat) (d : Date) : Prop :=
  ∃ e ∈ entries, e.date = d ∧ e.completed habitId = true

/-- The `k` consecutive calendar days that end with `d` are all days on which
the habit is completed. -/
def IsRun (entries : List Entry) (habitId : Nat) (d : Date) (k : Nat) : Prop :=
  ∀ i, i < k → completedOn entries habitId (daysBack d i)

/-! ## Concrete stores and documents -/

/-- An entry for `date` that holds `completions` and no other data. -/
def bareEntry (date : Date) (completions : Option Obj) : Entry :=
  { date := date, mood := JSVal.null, highlight := .prim (.str ""),
    journal := .prim (.str ""), screenTime := JSVal.null, weight := JSVal.null,
    habitCompletions := completions }

/-- One habit, id 1, and one entry that records it as not done (`false`). -/
def dbNotDone : DB :=
  { habits := [{ id := 1, name := "Read", createdAt := "2024-01-01T08:00:00.000Z" }]
    habitKeyGen := 2
    entries := [bareEntry ⟨2024, 1, 1⟩ (some [("1", .prim (.bool false))])]
    preferences := [] }

/-- One habit, id 1, done on 2024-01-01 and not done on 2024-01-02. -/
def dbDoneOnce : DB :=
  { habits := [{ id := 1, name := "Read", createdAt := "2024-01-01T08:00:00.000Z" }]
    habitKeyGen := 2
    entries := [bareEntry ⟨2024, 1, 1⟩ (some [("1", .prim (.bool true))]),
      bareEntry ⟨2024, 1, 2⟩ (some [("1", .prim (.bool false))])]
    preferences := [] }

/-- An empty database but for one stored preference: the theme `dark`. -/
def dbDarkTheme : DB :=
  { DB.empty with preferences := [{ key := "theme", value := .prim (.str "dark") }] }

/-- A backup document with two habit objects, one carrying the id 5 and one
carrying none, one entry, and no preferences. -/
def docTwoHabits : BackupDoc :=
  { version := 2
    exportDate := "2024-02-01T09:00:00.000Z"
    habits := some [{ id := some 5, name := "Run", createdAt := "2024-01-01T08:00:00.000Z" },
      { id := none, name := "Walk", createdAt := "2024-01-02T08:00:00.000Z" }]
    entries := some [bareEntry ⟨2024, 1, 3⟩ (some [("5", .prim (.bool true))])]
    preferences := none }

/-- One habit, two entries and one stored preference. -/
def dbSample : DB :=
  { dbDoneOnce with preferences := [{ key := "theme", value := .prim (.str "dark") }] }

/-- The streak scenario: habit 1 completed on 2024-01-01 through 2024-01-05
and on 2024-01-08. -/
def streakEntries : List Entry :=
  [bareEntry ⟨2024, 1, 1⟩ (some [("1", .prim (.bool true))]),
    bareEntry ⟨2024, 1, 2⟩ (some [("1", .prim (.bool true))]),
    bareEntry ⟨2024, 1, 3⟩ (some [("1", .prim (.bool true))]),
    bareEntry ⟨2024, 1, 4⟩ (some [("1", .prim (.bool true))]),
    bareEntry ⟨2024, 1, 5⟩ (some [("1", .prim (.bool true))]),
    bareEntry ⟨2024, 1, 8⟩ (some [("1", .prim (.bool true))])]

/-- Habit 1 completed on 2024-11-02 and on 2024-11-04, not on the day
between. -/
def dstEntries : List Entry :=
  [bareEntry ⟨2024, 11, 2⟩ (some [("1", .prim (.bool true))]),
    bareEntry ⟨2024, 11, 4⟩ (some [("1", .prim (.bool true))])]

/-! ## The database a call of `importData` leaves behind -/

/-- The database the habit loop of `importData` leaves: the records added
before the first request that fails stay. -/
def importHabitsState (tx : TxState) (db : DB) : List HabitRecord → DB
  | [] => db
  | habit :: rest =>
    match tx.request (addHabitRecord db habit) with
    | .ok db1 => importHabitsState tx db1 rest
    | .error _ => db

/-- The database the entry loop of `importData` leaves. -/
def importEntriesState (tx : TxState) (db : DB) : List Entry → DB
  | [] => db
  | entry :: rest =>
    match tx.request (.ok { db with entries := Store.put Entry.date entry db.entries }) with
    | .ok db1 => importEntriesState tx db1 rest
    | .error _ => db

/-- The database after `importData(json)`, whether it has succeeded or
thrown: untouched when the validation throws, cleared and loaded as far as
the first request that fails, and the imported database otherwise. -/
def importDataState (db : DB) (json : BackupDoc) : DB :=
  match json.habits, json.entries with
  | some habits, some entries =>
    let db := { db with habits := [] }
    let db := { db with entries := [] }
    let db := { db with preferences := [] }
    match importHabits .finished db habits with
    | .error _ => importHabitsState .finished db habits
    | .ok db =>
      match importEntries .finished db entries with
      | .error _ => importEntriesState .finished db entries
      | .ok db =>
        match json.preferences with
        | some prefs => setPreferences db prefs
        | none => db
  | _, _ => db

/-- A backup document with empty lists of habits and entries and one
preference. -/
def docOnlyTheme : BackupDoc :=
  { version := 2
    exportDate := "2024-02-01T09:00:00.000Z"
    habits := some []
    entries := some []
    preferences := some [("theme", .prim (.str "dark"))] }

/-- A backup document without `habits`. -/
def docNoHabits : BackupDoc :=
  { version := 2
    exportDate := "2024-02-01T09:00:00.000Z"
    habits := none
    entries := some [bareEntry ⟨2024, 1, 3⟩ (some [])]
    preferences := some [("theme", .prim (.str "dark"))] }

/-! ## Strings: white space -/

/-- The characters `String.prototype.trim` strips and `\s` matches: the
white space and line terminator code points of ECMAScript. -/
def isWhiteSpace (c : Char) : Bool :=
  let n := c.toNat
  n = 0x9 || n = 0xA || n = 0xB || n = 0xC || n = 0xD || n = 0x20 || n = 0xA0 ||
    n = 0x1680 || (0x2000 ≤ n && n ≤ 0x200A) || n = 0x2028 || n = 0x2029 || n = 0x202F ||
    n = 0x205F || n = 0x3000 || n = 0xFEFF

/-- Trimming a list of characters at both ends. -/
def trimChars (cs : List Char) : List Char :=
  ((cs.dropWhile isWhiteSpace).reverse.dropWhile isWhiteSpace).reverse

/-- The method `s.trim()`. -/
def jsTrim (s : String) : String := String.mk (trimChars s.data)

/-! ## Habit repository: adding and renaming -/

/-- From `addHabit(name)`, at the time stamp `now`: adds `{ name: name.trim(),
createdAt }` and resolves with the key the store has given it. -/
def addHabit (db : DB) (name : String) (now : String) : Except StoreError (DB × Nat) :=
  match addHabitRecord db { id := none, name := jsTrim name, createdAt := now } with
  | .ok db1 => .ok (db1, db.habitKeyGen)
  | .error e => .error e

/-- The failure of `updateHabit`: `Error('Habit not found')`. -/
inductive HabitError where
  | notFound
  deriving DecidableEq, Repr

/-- From `updateHabit(id, name)`: the database it leaves and its outcome.  It
gets the record; when there is one it puts it back with the trimmed name
(a `put` under an explicit key moves the key generator past that key) and
resolves with the key, otherwise it rejects and writes nothing. -/
def updateHabit (db : DB) (id : Nat) (name : String) : DB × Except HabitError Nat :=
  match Store.get Habit.id id db.habits with
  | some habit =>
    ({ db with
       habits := Store.put Habit.id { habit with name := jsTrim name } db.habits
       habitKeyGen := max db.habitKeyGen (habit.id + 1) }, .ok habit.id)
  | none => (db, .error .notFound)

/-- The key generator of `habits` is ahead of every key of the store. -/
def DB.KeyGenAhead (db : DB) : Prop := ∀ h ∈ db.habits, h.id < db.habitKeyGen

instance (db : DB) : Decidable db.KeyGenAhead := by
  unfold DB.KeyGenAhead; infer_instance

/-! ## Analytics: trends -/

/-- The test `v !== null && v !== undefined`. -/
def notNullish (v : JSVal) : Bool := v != JSVal.null && v != JSVal.undefined

/-- A point `{ date, mood }` of the mood trend. -/
structure MoodPoint where
  date : Date
  mood : JSVal
  deriving DecidableEq, Repr

/-- A point `{ date, weight }` of the weight trend. -/
structure WeightPoint where
  date : Date
  weight : JSVal
  deriving DecidableEq, Repr

/-- From `getMoodTrend(days)`, over the entries of `getAllEntries()`, with
`cutoffStr` the date `days` days before today.  The sort is stable and
compares the dates. -/
def getMoodTrend (entries : List Entry) (cutoffStr : Date) : List MoodPoint :=
  ((entries.filter (fun e => decide (cutoffStr ≤ e.date) && notNullish e.mood)).map
    (fun e => ({ date := e.date, mood := e.mood } : MoodPoint))).insertionSort
      (fun a b => a.date ≤ b.date)

/-- From `getWeightTrend(days)`, as `getMoodTrend`. -/
def getWeightTrend (entries : List Entry) (cutoffStr : Date) : List WeightPoint :=
  ((entries.filter (fun e => decide (cutoffStr ≤ e.date) && notNullish e.weight)).map
    (fun e => ({ date := e.date, weight := e.weight } : WeightPoint))).insertionSort
      (fun a b => a.date ≤ b.date)

/-- The mood scenario: mood 3 on 2024-01-02, then mood 5 on 2024-01-01. -/
def moodEntries : List Entry :=
  [{ bareEntry ⟨2024, 1, 2⟩ none with mood := .prim (.num 3) },
    { bareEntry ⟨2024, 1, 1⟩ none with mood := .prim (.num 5) }]

/-! ## Numbers: double precision

`completed / total` and the product by 100 are computed in IEEE 754 double
precision.  A finite double that is not negative is `m * 2 ^ e` with `m` below
`2 ^ 53`; the operations below round the exact result to 53 significant
bits, ties to even (the values at hand are far from the subnormal range and
from overflow).
-/

/-- The quotient `n / d` rounded to the nearest integer, ties to even. -/
def roundHalfEven (n d : Nat) : Nat :=
  if 2 * (n % d) < d then n / d
  else if d < 2 * (n % d) then n / d + 1
  else if (n / d) % 2 = 0 then n / d
  else n / d + 1

/-- The position of the leading bit, counted down from `fuel`. -/
def floorLog2Aux : Nat → Nat → Nat
  | 0, _ => 0
  | fuel + 1, n => if 2 ≤ n then floorLog2Aux fuel (n / 2) + 1 else 0

/-- The position of the leading bit of `n`: the largest `k` with
`2 ^ k ≤ n` (0 for `n = 0`). -/
def floorLog2 (n : Nat) : Nat := floorLog2Aux n n

/-- A double that is not negative: the number `m * 2 ^ e`. -/
structure Double where
  m : Nat
  e : Int
  deriving DecidableEq, Repr

/-- The number `m * 2 ^ e` rounded to 53 significant bits. -/
def Double.round53 (m : Nat) (e : Int) : Double :=
  let s := floorLog2 m - 52
  { m := roundHalfEven m (2 ^ s), e := e + s }

/-- A count, as a Number. -/
def Double.ofNat (n : Nat) : Double := Double.round53 n 0

/-- The numerator and denominator of `a / b` scaled by `2 ^ (-k)`. -/
def Double.scaled (a b : Double) (k : Int) : Nat × Nat :=
  if 0 ≤ k then (a.m * 2 ^ k.toNat, b.m) else (a.m, b.m * 2 ^ (-k).toNat)

/-- The operator `a / b` (for `b` not zero): the exact quotient, scaled to
lie between `2 ^ 52` and `2 ^ 53`, is rounded to an integer. -/
def Double.div (a b : Double) : Double :=
  if a.m = 0 then { m := 0, e := 0 }
  else
    let k0 : Int := 52 + (floorLog2 b.m : Int) - (floorLog2 a.m : Int)
    let k : Int :=
      if (Double.scaled a b k0).1 < (Double.scaled a b k0).2 * 2 ^ 52 then k0 + 1 else k0
    { m := roundHalfEven (Double.scaled a b k).1 (Double.scaled a b k).2, e := a.e - b.e - k }

/-- The operator `a * b`. -/
def Double.mul (a b : Double) : Double := Double.round53 (a.m * b.m) (a.e + b.e)

/-- The function `Math.round`: the nearest integer, a tie going up. -/
def mathRound (x : Double) : Nat :=
  if 0 ≤ x.e then x.m * 2 ^ x.e.toNat
  else (2 * x.m + 2 ^ (-x.e).toNat) / 2 ^ (1 - x.e).toNat

/-- The expression `Math.round((part / whole) * 100)`. -/
def percentRounded (part whole : Nat) : Nat :=
  mathRound (Double.mul (Double.div (Double.ofNat part) (Double.ofNat whole)) (Double.ofNat 100))

/-! ## Analytics: completion rate -/

/-- The result `{ completed, total, rate }` of `calculateHabitStats`. -/
structure HabitStats where
  completed : Nat
  total : Nat
  rate : Nat
  deriving DecidableEq, Repr

/-- From `calculateHabitStats(habitId, days)`, over the entries of
`getAllEntries()`, with `cutoffStr` the date `days` days before today. -/
def calculateHabitStats (entries : List Entry) (cutoffStr : Date) (habitId : Nat) :
    HabitStats :=
  let relevantEntries := entries.filter (fun e => decide (cutoffStr ≤ e.date))
  let completed := (relevantEntries.filter (fun e => e.completed habitId)).length
  let total := relevantEntries.length
  { completed := completed
    total := total
    rate := if 0 < total then percentRounded completed total else 0 }

/-! ## Analytics: the most consistent habits -/

/-- A pair `{ habit, rate }` of `getMostConsistentHabits`. -/
structure HabitRate where
  habit : Habit
  rate : Nat
  deriving DecidableEq, Repr

/-- From `getMostConsistentHabits()`, over the records of `getHabits()` and the
entries of `getAllEntries()`, with `cutoffStr` the date 30 days before today.
The comparator `b.rate - a.rate` puts the higher rate first, and the sort is
stable. -/
def getMostConsistentHabits (habits : List Habit) (entries : List Entry) (cutoffStr : Date) :
    List HabitRate :=
  let habitStats := habits.map (fun habit =>
    ({ habit := habit, rate := (calculateHabitStats entries cutoffStr habit.id).rate } :
      HabitRate))
  (((habitStats.filter (fun h => decide (0 < h.rate))).insertionSort
    (fun a b => b.rate ≤ a.rate)).take 3)

/-! ## Analytics: journal consistency -/

/-- The method `s.split(/\s+/)` on the characters of `s`: `cur` holds the
piece being read, in reverse, and `inSep` tells that the last character was
white space. -/
def splitWhiteSpaceAux : List Char → List Char → Bool → List (List Char)
  | [], cur, _ => [cur.reverse]
  | c :: rest, cur, inSep =>
    if isWhiteSpace c then
      if inSep then splitWhiteSpaceAux rest cur true
      else cur.reverse :: splitWhiteSpaceAux rest [] true
    else splitWhiteSpaceAux rest (c :: cur) false

/-- The method `s.split(/\s+/)`. -/
def splitWhiteSpace (cs : List Char) : List (List Char) := splitWhiteSpaceAux cs [] false

/-- The expression `journal.trim().split(/\s+/).filter(w => w.length > 0).length`. -/
def wordCount (journal : String) : Nat :=
  ((splitWhiteSpace (trimChars journal.data)).filter (fun w => decide (0 < w.length))).length

/-- The text of a journal that is a string. -/
def journalText (e : Entry) : String :=
  match e.journal with
  | .prim (.str s) => s
  | _ => ""

/-- The test `e.journal && e.journal.trim().length > 0`, for a journal that is
a string or falsy. -/
def Entry.journaled (e : Entry) : Bool :=
  e.journal.truthy && decide (0 < (jsTrim (journalText e)).length)

/-- The journal is a string, or falsy: `journal.trim()` is then never called
on a value that has no such method. -/
def Entry.journalOk (e : Entry) : Bool :=
  match e.journal with
  | .prim (.str _) => true
  | v => !v.truthy

/-- The result of `getJournalConsistency`. -/
structure JournalStats where
  total : Nat
  journaled : Nat
  rate : Nat
  totalWords : Nat
  longestStreak : Nat
  deriving DecidableEq, Repr

/-- A JavaScript exception. -/
inductive JSError where
  | typeError
  deriving DecidableEq, Repr

/-- From `getJournalConsistency()`, over the entries of `getAllEntries()`.  The
call `journal.trim()` throws a `TypeError` on a truthy journal that is not a
string.  The streak loop is the second loop of `calculateHabitStreak`, here on
local midnights, which are taken to lie as far apart as the UTC ones (as they
do in a zone that keeps one offset from UTC). -/
def getJournalConsistency (entries : List Entry) : Except JSError JournalStats :=
  if entries.all (fun e => e.journalOk) then
    let journaled := (entries.filter (fun e => e.journaled)).length
    let total := entries.length
    let rate := if 0 < total then percentRounded journaled total else 0
    let totalWords := (entries.filter (fun e => e.journaled)).foldl
      (fun sum e => sum + wordCount (journalText e)) 0
    let sortedEntries := (((entries.filter (fun e => e.journaled)).map
      (fun e => e.date)).insertionSort (fun a b => a ≤ b)).reverse
    let longestStreak :=
      match sortedEntries with
      | [] => 0
      | first :: rest => longestStreakLoop first rest 1 1
    .ok { total := total, journaled := journaled, rate := rate, totalWords := totalWords,
          longestStreak := longestStreak }
  else .error .typeError

/-! ## Words, as the specification words them -/

/-- The number of maximal runs of characters that are not white space;
`afterSpace` tells that no such run is being read. -/
def countRunsAux : Bool → List Char → Nat
  | _, [] => 0
  | afterSpace, c :: rest =>
    if isWhiteSpace c then countRunsAux true rest
    else (if afterSpace then 1 else 0) + countRunsAux false rest

/-- The number of maximal runs of non-white-space characters in a text. -/
def countRuns (text : String) : Nat := countRunsAux true text.data

/-- The rounding `round(100 * part / whole)`, a tie going up. -/
def percentExact (part whole : Nat) : Nat := (200 * part + whole) / (2 * whole)

/-! ## Forty days of entries -/

/-- Day `i` of a run of days that starts on 2024-01-01, for `i < 60`. -/
def runDay (i : Nat) : Date :=
  if i < 31 then ⟨2024, 1, (i : Int) + 1⟩ else ⟨2024, 2, (i : Int) - 30⟩

/-- An entry of the run: habit 1 is done and the journal reads `long walk`. -/
def fullEntry (i : Nat) : Entry :=
  { bareEntry (runDay i) (some [("1", .prim (.bool true))]) with
    journal := .prim (.str "long walk") }

/-- Entries for the forty days from 2024-01-01 on: the first 23 record habit 1
as done and hold a journal of two words, the other 17 hold neither. -/
def fortyEntries : List Entry :=
  (List.range 40).map (fun i => if i < 23 then fullEntry i else bareEntry (runDay i) none)

/-- Entries for the ten days from 2024-01-01 on, habit 1 done on the first 4. -/
def tenEntries : List Entry :=
  (List.range 10).map (fun i => if i < 4 then fullEntry i else bareEntry (runDay i) none)

/-- The journal is a text that is not empty after trimming. -/
def Entry.hasJournalText (e : Entry) : Bool :=
  match e.journal with
  | .prim (.str s) => !(trimChars s.data).isEmpty
  | _ => false

/-! # Lemmas -/

/-! ## Objects -/

theorem Obj.lookup_delete_self (o : Obj) (k : String) :
    List.lookup k (Obj.delete o k) = none := by
  induction o with
  | nil => rfl
  | cons p rest ih =>
    obtain ⟨k0, v0⟩ := p
    by_cases h : k0 = k
    · simpa [Obj.delete, h] using ih
    · have hk : (k == k0) = false := by simpa using fun h2 => h h2.symm
      simp only [Obj.delete] at ih
      simp [Obj.delete, h, List.lookup, hk, ih]

theorem Obj.get_delete_self (o : Obj) (k : String) :
    Obj.get (Obj.delete o k) k = JSVal.undefined := by
  simp [Obj.get, Obj.lookup_delete_self]

theorem Obj.has_delete_self (o : Obj) (k : String) :
    Obj.has (Obj.delete o k) k = false := by
  simp [Obj.has, Obj.delete]

/-! ## Object stores -/

theorem Store.get_put_self {κ α : Type} [LinearOrder κ] [DecidableEq κ]
    (key : α → κ) (r : α) (l : List α) :
    Store.get key (key r) (Store.put key r l) = some r := by
  induction l with
  | nil => simp [Store.put, Store.get]
  | cons x xs ih =>
    by_cases h1 : key r < key x
    · simp [Store.put, Store.get, h1]
    · by_cases h2 : key x < key r
      · have hne : key x ≠ key r := ne_of_lt h2
        simp only [Store.put, h1, h2, if_true, if_false, Store.get, List.find?_cons, hne,
          decide_False]
        exact ih
      · simp [Store.put, Store.get, h1, h2]

theorem Store.get_put_of_ne {κ α : Type} [LinearOrder κ] [DecidableEq κ]
    (key : α → κ) (r : α) (k : κ) (hk : key r ≠ k) (l : List α) :
    Store.get key k (Store.put key r l) = Store.get key k l := by
  induction l with
  | nil => simp [Store.put, Store.get, hk]
  | cons x xs ih =>
    by_cases h1 : key r < key x
    · simp [Store.put, Store.get, h1, hk]
    · by_cases h2 : key x < key r
      · simp only [Store.put, h1, h2, if_true, if_false, Store.get, List.find?_cons]
        by_cases hx : key x = k
        · simp [hx]
        · simp only [hx, decide_False]
          exact ih
      · have hxr : key x = key r := le_antisymm (not_lt.mp h1) (not_lt.mp h2)
        have hx : key x ≠ k := hxr ▸ hk
        simp [Store.put, Store.get, h1, h2, hk, hx]

theorem Store.mem_put {κ α : Type} [LinearOrder κ] (key : α → κ) (r : α) (l : List α) (y : α)
    (hy : y ∈ Store.put key r l) : y = r ∨ y ∈ l := by
  induction l with
  | nil => simpa [Store.put] using hy
  | cons x xs ih =>
    by_cases h1 : key r < key x
    · simpa [Store.put, h1] using hy
    · by_cases h2 : key x < key r
      · simp only [Store.put, h1, h2, if_true, if_false, List.mem_cons] at hy
        rcases hy with hy | hy
        · exact Or.inr (hy ▸ List.mem_cons_self _ _)
        · rcases ih hy with h | h
          · exact Or.inl h
          · exact Or.inr (List.mem_cons_of_mem _ h)
      · simp only [Store.put, h1, h2, if_false, List.mem_cons] at hy
        rcases hy with hy | hy
        · exact Or.inl hy
        · exact Or.inr (List.mem_cons_of_mem _ hy)

theorem Store.ordered_put {κ α : Type} [LinearOrder κ] (key : α → κ) (r : α) (l : List α)
    (hl : Store.Ordered key l) : Store.Ordered key (Store.put key r l) := by
  induction l with
  | nil => simp [Store.put, Store.Ordered]
  | cons x xs ih =>
    have hx := List.pairwise_cons.mp hl
    by_cases h1 : key r < key x
    · simp only [Store.put, h1, if_true]
      refine List.pairwise_cons.mpr ⟨fun y hy => ?_, hl⟩
      rcases List.mem_cons.mp hy with rfl | hy
      · exact h1
      · exact lt_trans h1 (hx.1 y hy)
    · by_cases h2 : key x < key r
      · simp only [Store.put, h1, h2, if_true, if_false]
        refine List.pairwise_cons.mpr ⟨fun y hy => ?_, ih hx.2⟩
        rcases Store.mem_put key r xs y hy with rfl | hy
        · exact h2
        · exact hx.1 y hy
      · have hxr : key x = key r := le_antisymm (not_lt.mp h1) (not_lt.mp h2)
        simp only [Store.put, h1, h2, if_false]
        exact List.pairwise_cons.mpr ⟨fun y hy => hxr ▸ hx.1 y hy, hx.2⟩

/-- Putting a record whose key is above every key of the store appends it. -/
theorem Store.put_append {κ α : Type} [LinearOrder κ] (key : α → κ) (r : α) (l : List α)
    (hl : ∀ x ∈ l, key x < key r) : Store.put key r l = l ++ [r] := by
  induction l with
  | nil => rfl
  | cons x xs ih =>
    have hx : key x < key r := hl x (List.mem_cons_self _ _)
    have h1 : ¬ key r < key x := not_lt.mpr (le_of_lt hx)
    simp only [Store.put, h1, hx, if_true, if_false, List.cons_append]
    rw [ih (fun y hy => hl y (List.mem_cons_of_mem _ hy))]

theorem Store.get_eq_none_of_not_mem {κ α : Type} [DecidableEq κ] (key : α → κ) (k : κ) (l : List α)
    (h : ∀ x ∈ l, key x ≠ k) : Store.get key k l = none := by
  simp only [Store.get, List.find?_eq_none]
  intro x hx
  simpa using h x hx

theorem Store.get_put_eq {κ α : Type} [LinearOrder κ] [DecidableEq κ] (key : α → κ) (r : α) (k : κ)
    (hk : key r = k) (l : List α) : Store.get key k (Store.put key r l) = some r := by
  subst hk
  exact Store.get_put_self key r l

/-! ## Objects: reading after writing -/

theorem Obj.lookup_cons_ne (k k0 : String) (v0 : JSVal) (rest : Obj) (h : k ≠ k0) :
    List.lookup k ((k0, v0) :: rest) = List.lookup k rest := by
  have hb : (k == k0) = false := by simpa using h
  simp [List.lookup, hb]

theorem Obj.lookup_cons_eq (k : String) (v0 : JSVal) (rest : Obj) :
    List.lookup k ((k, v0) :: rest) = some v0 := by
  simp [List.lookup]

theorem Obj.lookup_set (o : Obj) (k : String) (v : JSVal) (k1 : String) :
    List.lookup k1 (Obj.set o k v) = if k1 = k then some v else List.lookup k1 o := by
  induction o with
  | nil =>
    by_cases h : k1 = k
    · subst h; simp [Obj.set, Obj.lookup_cons_eq]
    · simp [Obj.set, Obj.lookup_cons_ne _ _ _ _ h, h]
  | cons p rest ih =>
    obtain ⟨k0, v0⟩ := p
    by_cases h0 : k0 = k
    · subst h0
      by_cases h : k1 = k0
      · subst h; simp [Obj.set, Obj.lookup_cons_eq]
      · simp [Obj.set, Obj.lookup_cons_ne _ _ _ _ h, h]
    · by_cases h : k1 = k0
      · subst h
        simp [Obj.set, h0, Obj.lookup_cons_eq]
      · simp only [Obj.set, h0, if_false, Obj.lookup_cons_ne _ _ _ _ h, ih]

theorem Obj.lookup_spread (a b : Obj) (k : String) :
    List.lookup k (Obj.spread a b) = (List.lookup k b.reverse).or (List.lookup k a) := by
  induction b generalizing a with
  | nil => simp [Obj.spread]
  | cons p rest ih =>
    obtain ⟨k0, v0⟩ := p
    have h := ih (Obj.set a k0 v0)
    simp only [Obj.spread, List.foldl_cons] at h ⊢
    rw [h, Obj.lookup_set, List.reverse_cons, List.lookup_append]
    by_cases hk : k = k0
    · subst hk
      cases hl : List.lookup k rest.reverse <;> simp [Obj.lookup_cons_eq]
    · cases hl : List.lookup k rest.reverse <;>
        simp [hk, Obj.lookup_cons_ne _ _ _ _ hk]

theorem Obj.lookup_reverse (o : Obj) (h : o.Pairwise (fun a b => a.1 ≠ b.1)) (k : String) :
    List.lookup k o.reverse = List.lookup k o := by
  induction o with
  | nil => rfl
  | cons p rest ih =>
    obtain ⟨k0, v0⟩ := p
    have hp := List.pairwise_cons.mp h
    rw [List.reverse_cons, List.lookup_append, ih hp.2]
    by_cases hk : k = k0
    · subst hk
      have hnone : List.lookup k rest = none := by
        rw [List.lookup_eq_none_iff]
        intro q hq
        have := hp.1 q hq
        simpa using this
      simp [hnone, Obj.lookup_cons_eq]
    · cases hl : List.lookup k rest <;> simp [Obj.lookup_cons_ne _ _ _ _ hk, hl]

theorem Obj.has_eq_isSome (o : Obj) (k : String) :
    Obj.has o k = (List.lookup k o).isSome := by
  induction o with
  | nil => rfl
  | cons p rest ih =>
    obtain ⟨k0, v0⟩ := p
    by_cases hk : k = k0
    · subst hk; simp [Obj.has, Obj.lookup_cons_eq]
    · have hk2 : ¬ k0 = k := fun h => hk h.symm
      simp only [Obj.has, List.any_cons] at ih ⊢
      simp [Obj.lookup_cons_ne _ _ _ _ hk, hk2, ih]

/-- The object `prefs` of `getPreferences` holds the stored pairs. -/
theorem lookup_storedPreferences (items : List Pref)
    (h : Store.Ordered Pref.key items) (k : String) :
    List.lookup k (storedPreferences items) =
      (Store.get Pref.key k items).map Pref.value := by
  have hspread : storedPreferences items =
      Obj.spread [] (items.map (fun p => (p.key, p.value))) := by
    simp [storedPreferences, Obj.spread, List.foldl_map]
  have hnodup : (items.map (fun p => (p.key, p.value))).Pairwise (fun a b => a.1 ≠ b.1) := by
    rw [List.pairwise_map]
    exact h.imp (fun hab => ne_of_lt hab)
  rw [hspread, Obj.lookup_spread, Obj.lookup_reverse _ hnodup]
  simp only [List.lookup, Option.or_none]
  clear h hspread hnodup
  induction items with
  | nil => rfl
  | cons p rest ih =>
    by_cases hk : k = p.key
    · subst hk; simp [Store.get, Obj.lookup_cons_eq]
    · have hk2 : ¬ p.key = k := fun h => hk h.symm
      simp only [List.map_cons, Obj.lookup_cons_ne _ _ _ _ hk, ih]
      simp [Store.get, hk2]

theorem Obj.mem_set (o : Obj) (k : String) (v : JSVal) (q : String × JSVal)
    (hq : q ∈ Obj.set o k v) : q.1 = k ∨ q ∈ o := by
  induction o with
  | nil =>
    simp only [Obj.set, List.mem_singleton] at hq
    exact Or.inl (by rw [hq])
  | cons p rest ih =>
    obtain ⟨k0, v0⟩ := p
    by_cases h0 : k0 = k
    · simp only [Obj.set, h0, if_true, List.mem_cons] at hq
      rcases hq with hq | hq
      · exact Or.inl (by rw [hq])
      · exact Or.inr (List.mem_cons_of_mem _ hq)
    · simp only [Obj.set, h0, if_false, List.mem_cons] at hq
      rcases hq with hq | hq
      · exact Or.inr (hq ▸ List.mem_cons_self _ _)
      · rcases ih hq with h | h
        · exact Or.inl h
        · exact Or.inr (List.mem_cons_of_mem _ h)

/-- Writing a property keeps the keys of an object distinct. -/
theorem Obj.pairwise_set (o : Obj) (k : String) (v : JSVal)
    (h : o.Pairwise (fun a b => a.1 ≠ b.1)) :
    (Obj.set o k v).Pairwise (fun a b => a.1 ≠ b.1) := by
  induction o with
  | nil => simp [Obj.set]
  | cons p rest ih =>
    obtain ⟨k0, v0⟩ := p
    have hp := List.pairwise_cons.mp h
    by_cases h0 : k0 = k
    · subst h0
      simp only [Obj.set, if_true]
      exact List.pairwise_cons.mpr ⟨fun q hq => hp.1 q hq, hp.2⟩
    · simp only [Obj.set, h0, if_false]
      refine List.pairwise_cons.mpr ⟨fun q hq => ?_, ih hp.2⟩
      rcases Obj.mem_set rest k v q hq with hk | hmem
      · intro heq
        exact h0 (heq.trans hk)
      · exact hp.1 q hmem

theorem Obj.pairwise_spread (a b : Obj) (h : a.Pairwise (fun a b => a.1 ≠ b.1)) :
    (Obj.spread a b).Pairwise (fun a b => a.1 ≠ b.1) := by
  induction b generalizing a with
  | nil => simpa [Obj.spread] using h
  | cons p rest ih =>
    simp only [Obj.spread, List.foldl_cons]
    exact ih _ (Obj.pairwise_set a p.1 p.2 h)

theorem pairwise_storedPreferences (items : List Pref) :
    (storedPreferences items).Pairwise (fun a b => a.1 ≠ b.1) := by
  have hspread : storedPreferences items =
      Obj.spread [] (items.map (fun p => (p.key, p.value))) := by
    simp [storedPreferences, Obj.spread, List.foldl_map]
  rw [hspread]
  exact Obj.pairwise_spread _ _ List.Pairwise.nil

/-- What `getPreferences` returns at a key: the stored value, or the default. -/
theorem lookup_getPreferences (db : DB) (h : Store.Ordered Pref.key db.preferences)
    (k : String) :
    List.lookup k (getPreferences db) =
      ((Store.get Pref.key k db.preferences).map Pref.value).or
        (List.lookup k defaultPreferences) := by
  rw [getPreferences, Obj.lookup_spread,
    Obj.lookup_reverse _ (pairwise_storedPreferences db.preferences),
    lookup_storedPreferences _ h]

/-! ## Import: requests on finished transactions -/

theorem Store.get_foldl_put {κ α : Type} [LinearOrder κ] [DecidableEq κ]
    (key : α → κ) (k : κ) (l acc : List α) :
    Store.get key k (l.foldl (fun s r => Store.put key r s) acc) =
      (l.reverse.find? (fun x => decide (key x = k))).or (Store.get key k acc) := by
  induction l generalizing acc with
  | nil => simp
  | cons x xs ih =>
    rw [List.foldl_cons, ih, List.reverse_cons, List.find?_append]
    by_cases hx : key x = k
    · rw [Store.get_put_eq key x k hx]
      cases List.find? (fun x => decide (key x = k)) xs.reverse <;> simp [hx]
    · rw [Store.get_put_of_ne key x k hx]
      cases List.find? (fun x => decide (key x = k)) xs.reverse <;> simp [hx, Store.get]

theorem Store.ordered_foldl_put {κ α : Type} [LinearOrder κ] (key : α → κ) (l acc : List α)
    (h : Store.Ordered key acc) :
    Store.Ordered key (l.foldl (fun s r => Store.put key r s) acc) := by
  induction l generalizing acc with
  | nil => exact h
  | cons x xs ih => exact ih _ (Store.ordered_put key x acc h)

theorem setPreferences_eq (db : DB) (prefs : Obj) :
    setPreferences db prefs =
      { db with
        preferences := (prefs.map (fun p => ({ key := p.1, value := p.2 } : Pref))).foldl
          (fun s r => Store.put Pref.key r s) db.preferences } := by
  induction prefs generalizing db with
  | nil => rfl
  | cons p rest ih =>
    simp only [setPreferences, List.foldl_cons, List.map_cons] at ih ⊢
    rw [ih]
    rfl

theorem lookup_eq_find_map (l : Obj) (k : String) :
    ((l.map (fun p => ({ key := p.1, value := p.2 } : Pref))).find?
      (fun x => decide (x.key = k))).map Pref.value = List.lookup k l := by
  induction l with
  | nil => rfl
  | cons p rest ih =>
    obtain ⟨k0, v0⟩ := p
    by_cases hk : k = k0
    · subst hk; simp [Obj.lookup_cons_eq]
    · have hk2 : ¬ k0 = k := fun h => hk h.symm
      simp only [List.map_cons, List.find?_cons, hk2, decide_False,
        Obj.lookup_cons_ne _ _ _ _ hk]
      exact ih

/-- A request on a transaction that has finished fails: the habit loop gets
through an empty list only. -/
theorem importHabits_finished (db : DB) (hs : List HabitRecord) :
    importHabits .finished db hs =
      if hs = [] then .ok db else .error .transactionInactive := by
  cases hs with
  | nil => rfl
  | cons h rest => rfl

theorem importEntries_finished (db : DB) (es : List Entry) :
    importEntries .finished db es =
      if es = [] then .ok db else .error .transactionInactive := by
  cases es with
  | nil => rfl
  | cons e rest => rfl

theorem importHabitsState_finished (db : DB) (hs : List HabitRecord) :
    importHabitsState .finished db hs = db := by
  cases hs with
  | nil => rfl
  | cons h rest => rfl

theorem importEntriesState_finished (db : DB) (es : List Entry) :
    importEntriesState .finished db es = db := by
  cases es with
  | nil => rfl
  | cons e rest => rfl

/-- A document with a habit or an entry: all three stores are cleared, then
the first request of a loop throws. -/
theorem importData_nonempty (db : DB) (doc : BackupDoc) (hs : List HabitRecord)
    (es : List Entry) (hh : doc.habits = some hs) (he : doc.entries = some es)
    (hne : hs ≠ [] ∨ es ≠ []) :
    importData db doc = .error (.store .transactionInactive) ∧
      importDataState db doc = { db with habits := [], entries := [], preferences := [] } := by
  unfold importData importDataState
  simp only [hh, he, importHabits_finished, importEntries_finished,
    importHabitsState_finished, importEntriesState_finished]
  by_cases h1 : hs = []
  · have h2 : es ≠ [] := hne.resolve_left (fun h => h h1)
    simp only [h1, h2, if_true, if_false, and_self]
  · simp only [h1, if_false, and_self]

/-- A document with two empty lists: the stores are cleared and the
preferences of the document, if any, are set. -/
theorem importData_empty (db : DB) (doc : BackupDoc) (hh : doc.habits = some [])
    (he : doc.entries = some []) :
    importData db doc = .ok (Option.elim doc.preferences
        { db with habits := [], entries := [], preferences := [] }
        (setPreferences { db with habits := [], entries := [], preferences := [] })) ∧
      importDataState db doc = Option.elim doc.preferences
        { db with habits := [], entries := [], preferences := [] }
        (setPreferences { db with habits := [], entries := [], preferences := [] }) := by
  unfold importData importDataState
  simp only [hh, he, importHabits_finished, importEntries_finished, if_true]
  cases doc.preferences with
  | none => exact ⟨rfl, rfl⟩
  | some prefs => exact ⟨rfl, rfl⟩

/-- A document without `habits` or without `entries`: nothing is touched. -/
theorem importData_invalid (db : DB) (doc : BackupDoc)
    (h : doc.habits = none ∨ doc.entries = none) :
    importData db doc = .error .invalidFormat ∧ importDataState db doc = db := by
  unfold importData importDataState
  rcases h with h | h
  · simp only [h, and_self]
  · cases hh : doc.habits <;> simp only [h, hh, and_self]

/-- A call of `importData` that succeeds was given two empty lists. -/
theorem importData_ok_empty (db db1 : DB) (doc : BackupDoc)
    (hok : importData db doc = .ok db1) :
    doc.habits = some [] ∧ doc.entries = some [] := by
  cases hh : doc.habits with
  | none =>
    rw [(importData_invalid db doc (Or.inl hh)).1] at hok
    cases hok
  | some hs =>
    cases he : doc.entries with
    | none =>
      rw [(importData_invalid db doc (Or.inr he)).1] at hok
      cases hok
    | some es =>
      by_cases hne : hs ≠ [] ∨ es ≠ []
      · rw [(importData_nonempty db doc hs es hh he hne).1] at hok
        cases hok
      · simp only [not_or, not_not] at hne
        rw [hne.1, hne.2]
        exact ⟨rfl, rfl⟩

/-- The preferences `setPreferences` leaves in a store that was empty: in key
order, each key with the value the object has for it. -/
theorem setPreferences_cleared (db : DB) (prefs : Obj) :
    Store.Ordered Pref.key (setPreferences { db with preferences := [] } prefs).preferences ∧
      ∀ k, (Store.get Pref.key k
          (setPreferences { db with preferences := [] } prefs).preferences).map Pref.value =
        List.lookup k prefs.reverse := by
  constructor
  · simp only [setPreferences_eq]
    exact Store.ordered_foldl_put Pref.key _ _ List.Pairwise.nil
  · intro k
    simp only [setPreferences_eq, Store.get_foldl_put]
    rw [← List.map_reverse, ← lookup_eq_find_map prefs.reverse k]
    simp [Store.get]

/-! ## The calendar -/

theorem Date.lt_def (a b : Date) : a < b ↔ a.year < b.year ∨ (a.year = b.year ∧
    (a.month < b.month ∨ (a.month = b.month ∧ a.day < b.day))) := Iff.rfl

theorem Date.le_def (a b : Date) : a ≤ b ↔ a.year < b.year ∨ (a.year = b.year ∧
    (a.month < b.month ∨ (a.month = b.month ∧ a.day ≤ b.day))) := Iff.rfl

theorem daysInMonth_pos (y m : Int) : 28 ≤ daysInMonth y m ∧ daysInMonth y m ≤ 31 := by
  unfold daysInMonth
  split_ifs <;> omega

theorem prevDay_wellFormed (d : Date) (h : d.WellFormed) : (prevDay d).WellFormed := by
  obtain ⟨y, m, dd⟩ := d
  simp only [Date.WellFormed] at h
  unfold prevDay
  simp only
  split_ifs with h1 h2
  · simp only [Date.WellFormed]; omega
  · simp only [Date.WellFormed]
    have := daysInMonth_pos y (m - 1)
    omega
  · simp only [Date.WellFormed, daysInMonth]
    simp

theorem prevDay_lt (d : Date) (h : d.WellFormed) : prevDay d < d := by
  obtain ⟨y, m, dd⟩ := d
  simp only [Date.WellFormed] at h
  rw [Date.lt_def]
  unfold prevDay
  dsimp only
  split_ifs with h1 h2
  · dsimp only; omega
  · dsimp only; omega
  · dsimp only; omega

/-- No well-formed date lies strictly between a date and the day before it. -/
theorem le_prevDay_of_lt (a b : Date) (ha : a.WellFormed) (hb : b.WellFormed)
    (hlt : b < a) : b ≤ prevDay a := by
  obtain ⟨y, m, d⟩ := a
  obtain ⟨y2, m2, d2⟩ := b
  simp only [Date.WellFormed] at ha hb
  rw [Date.lt_def] at hlt
  rw [Date.le_def]
  simp only at hlt
  unfold prevDay
  simp only
  split_ifs with h1 h2
  · simp only; omega
  · simp only
    rcases hlt with hlt | ⟨rfl, hlt | ⟨rfl, hlt⟩⟩
    · omega
    · by_cases hm : m2 = m - 1
      · subst hm; right; refine ⟨rfl, Or.inr ⟨rfl, ?_⟩⟩; omega
      · omega
    · omega
  · simp only
    have := daysInMonth_pos y2 m2
    omega

theorem dayFromYear_succ (y : Int) :
    dayFromYear (y + 1) = dayFromYear y + 365 + (if isLeap y then 1 else 0) := by
  unfold dayFromYear isLeap
  split_ifs with h <;> omega

theorem dayFromYear_mono (y z : Int) (h : y ≤ z) : dayFromYear y ≤ dayFromYear z := by
  unfold dayFromYear
  omega

theorem daysBeforeMonth_succ (y m : Int) (h1 : 1 ≤ m) (h2 : m ≤ 11) :
    daysBeforeMonth y (m + 1) = daysBeforeMonth y m + daysInMonth y m := by
  have hm : m = 1 ∨ m = 2 ∨ m = 3 ∨ m = 4 ∨ m = 5 ∨ m = 6 ∨ m = 7 ∨ m = 8 ∨ m = 9 ∨
      m = 10 ∨ m = 11 := by omega
  rcases hm with rfl | rfl | rfl | rfl | rfl | rfl | rfl | rfl | rfl | rfl | rfl <;>
    by_cases hl : isLeap y <;> simp [daysBeforeMonth, daysInMonth, hl]

theorem daysBeforeMonth_mono (y m n : Int) (h1 : 1 ≤ m) (h2 : m < n) (h3 : n ≤ 12) :
    daysBeforeMonth y m + daysInMonth y m ≤ daysBeforeMonth y n := by
  obtain ⟨k, rfl⟩ : ∃ k : Nat, n = m + 1 + k := ⟨(n - m - 1).toNat, by omega⟩
  induction k with
  | zero => simpa using le_of_eq (daysBeforeMonth_succ y m h1 (by omega)).symm
  | succ k ih =>
    have hstep := daysBeforeMonth_succ y (m + 1 + k) (by omega) (by omega)
    have hpos := daysInMonth_pos y (m + 1 + k)
    have := ih (by omega) (by omega)
    have heq : m + 1 + ((k + 1 : Nat) : Int) = m + 1 + k + 1 := by push_cast; ring
    rw [heq, hstep]
    omega

theorem dayOfYear_bound (d : Date) (h : d.WellFormed) :
    0 ≤ daysBeforeMonth d.year d.month + (d.day - 1) ∧
      daysBeforeMonth d.year d.month + (d.day - 1) ≤
        364 + (if isLeap d.year then 1 else 0) := by
  obtain ⟨y, m, dd⟩ := d
  simp only [Date.WellFormed] at h
  dsimp only
  have hm : m = 1 ∨ m = 2 ∨ m = 3 ∨ m = 4 ∨ m = 5 ∨ m = 6 ∨ m = 7 ∨ m = 8 ∨ m = 9 ∨
      m = 10 ∨ m = 11 ∨ m = 12 := by omega
  rcases hm with rfl | rfl | rfl | rfl | rfl | rfl | rfl | rfl | rfl | rfl | rfl | rfl <;>
    by_cases hl : isLeap y <;> simp [daysBeforeMonth, daysInMonth, hl] at h ⊢ <;> omega

/-- The day number of the previous day is one less. -/
theorem epochDay_prevDay (a : Date) (h : a.WellFormed) :
    epochDay (prevDay a) = epochDay a - 1 := by
  obtain ⟨y, m, d⟩ := a
  simp only [Date.WellFormed] at h
  unfold prevDay
  dsimp only
  split_ifs with h1 h2
  · simp only [epochDay]; omega
  · have hd : d = 1 := by omega
    subst hd
    have hs := daysBeforeMonth_succ y (m - 1) (by omega) (by omega)
    simp only [sub_add_cancel] at hs
    simp only [epochDay, hs]
    omega
  · have hd : d = 1 := by omega
    have hm : m = 1 := by omega
    subst hd; subst hm
    have hs := dayFromYear_succ (y - 1)
    simp only [sub_add_cancel] at hs
    simp only [epochDay, hs]
    by_cases hl : isLeap (y - 1) <;> simp [daysBeforeMonth, hl] <;> omega

theorem nextDay_wellFormed (d : Date) (h : d.WellFormed) : (nextDay d).WellFormed := by
  obtain ⟨y, m, dd⟩ := d
  simp only [Date.WellFormed] at h
  unfold nextDay
  dsimp only
  split_ifs with h1 h2
  · simp only [Date.WellFormed]; omega
  · simp only [Date.WellFormed]
    have := daysInMonth_pos y (m + 1)
    omega
  · simp only [Date.WellFormed, daysInMonth]
    simp

/-- The day number of the next day is one more. -/
theorem epochDay_nextDay (a : Date) (h : a.WellFormed) :
    epochDay (nextDay a) = epochDay a + 1 := by
  obtain ⟨y, m, d⟩ := a
  simp only [Date.WellFormed] at h
  unfold nextDay
  dsimp only
  split_ifs with h1 h2
  · simp only [epochDay]; omega
  · have hs := daysBeforeMonth_succ y m (by omega) (by omega)
    simp only [epochDay, hs]
    omega
  · have hm : m = 12 := by omega
    subst hm
    have hd : d = 31 := by
      have : daysInMonth y 12 = 31 := by simp [daysInMonth]
      omega
    subst hd
    have hs := dayFromYear_succ y
    simp only [epochDay, hs]
    by_cases hl : isLeap y <;> simp [daysBeforeMonth, hl] <;> omega

/-- The date `shiftDay d n` is the date whose day number is that of `d` plus
`n`. -/
theorem epochDay_shiftDay (d : Date) (h : d.WellFormed) (n : Int) :
    (shiftDay d n).WellFormed ∧ epochDay (shiftDay d n) = epochDay d + n := by
  have hnext : ∀ k : Nat, (nextDay^[k] d).WellFormed ∧
      epochDay (nextDay^[k] d) = epochDay d + k := by
    intro k
    induction k with
    | zero => exact ⟨h, by simp⟩
    | succ k ih =>
      rw [Function.iterate_succ_apply']
      refine ⟨nextDay_wellFormed _ ih.1, ?_⟩
      rw [epochDay_nextDay _ ih.1, ih.2]
      push_cast
      ring
  have hprev : ∀ k : Nat, (prevDay^[k] d).WellFormed ∧
      epochDay (prevDay^[k] d) = epochDay d - k := by
    intro k
    induction k with
    | zero => exact ⟨h, by simp⟩
    | succ k ih =>
      rw [Function.iterate_succ_apply']
      refine ⟨prevDay_wellFormed _ ih.1, ?_⟩
      rw [epochDay_prevDay _ ih.1, ih.2]
      push_cast
      ring
  unfold shiftDay
  split_ifs with h0
  · refine ⟨(hnext n.toNat).1, ?_⟩
    rw [(hnext n.toNat).2, Int.toNat_of_nonneg h0]
  · refine ⟨(hprev (-n).toNat).1, ?_⟩
    rw [(hprev (-n).toNat).2, Int.toNat_of_nonneg (by omega)]
    ring

/-- The new `checkDate` is the date of the UTC day that the time value falls
in which `setDate` leaves. -/
theorem epochDay_stepBack (zone : TimeZone) (d : Date) (h : d.WellFormed) :
    (stepBack zone d).WellFormed ∧
      epochDay (stepBack zone d) =
        zone.utcOf (utcMillis d + zone.offsetAt (utcMillis d) - 86400000) / 86400000 := by
  unfold stepBack
  refine ⟨(epochDay_shiftDay d h _).1, ?_⟩
  rw [(epochDay_shiftDay d h _).2]
  ring

/-- Day numbers follow the string order of dates. -/
theorem epochDay_lt (a b : Date) (ha : a.WellFormed) (hb : b.WellFormed) (hlt : a < b) :
    epochDay a < epochDay b := by
  have hba := dayOfYear_bound a ha
  have hbb := dayOfYear_bound b hb
  rw [Date.lt_def] at hlt
  simp only [epochDay]
  rcases hlt with hy | ⟨hy, hm | ⟨hm, hd⟩⟩
  · have h1 := dayFromYear_succ a.year
    have h2 := dayFromYear_mono (a.year + 1) b.year (by omega)
    omega
  · have := daysBeforeMonth_mono a.year a.month b.month ha.1 hm hb.2.1
    have hd1 := ha.2.2.2
    have hd2 := hb.2.2.1
    rw [← hy]
    omega
  · rw [← hy, ← hm]; omega

/-! ## Streaks -/

/-- The test of the second loop: the two time values are one day apart
exactly when the later date's previous day is the earlier date. -/
theorem adjacent_iff (a b : Date) (ha : a.WellFormed) (hb : b.WellFormed) :
    (utcMillis a - utcMillis b) / (1000 * 60 * 60 * 24) = 1 ↔ b = prevDay a := by
  have hdiv : (utcMillis a - utcMillis b) / (1000 * 60 * 60 * 24) = epochDay a - epochDay b := by
    simp only [utcMillis]; omega
  rw [hdiv]
  constructor
  · intro h
    have hlt : b < a := by
      rcases lt_trichotomy b a with h1 | h1 | h1
      · exact h1
      · subst h1; omega
      · have := epochDay_lt a b ha hb h1; omega
    rcases eq_or_lt_of_le (le_prevDay_of_lt a b ha hb hlt) with h1 | h1
    · exact h1
    · have h2 := epochDay_lt b (prevDay a) hb (prevDay_wellFormed a ha) h1
      have h3 := epochDay_prevDay a ha
      omega
  · intro h
    have := epochDay_prevDay a ha
    rw [h]; omega

theorem daysBack_succ (d : Date) (i : Nat) : daysBack d (i + 1) = prevDay (daysBack d i) := by
  simp only [daysBack, Function.iterate_succ_apply']

theorem daysBack_prevDay (d : Date) (i : Nat) : daysBack (prevDay d) i = daysBack d (i + 1) := by
  simp only [daysBack, Function.iterate_succ_apply]

theorem daysBack_wellFormed (d : Date) (h : d.WellFormed) (i : Nat) :
    (daysBack d i).WellFormed := by
  induction i with
  | zero => exact h
  | succ i ih => rw [daysBack_succ]; exact prevDay_wellFormed _ ih

theorem daysBack_lt (d : Date) (h : d.WellFormed) (i : Nat) (hi : 0 < i) :
    daysBack d i < d := by
  induction i with
  | zero => exact absurd hi (lt_irrefl 0)
  | succ i ih =>
    rw [daysBack_succ]
    have h1 := prevDay_lt _ (daysBack_wellFormed d h i)
    rcases Nat.eq_zero_or_pos i with h0 | h0
    · subst h0; exact h1
    · exact lt_trans h1 (ih h0)

/-- A run inside a descending list that does not start at its head lies in
its tail. -/
theorem run_in_tail (prev : Date) (tail : List Date)
    (hsorted : (prev :: tail).Pairwise (fun a b => b < a))
    (hwf : ∀ x ∈ prev :: tail, x.WellFormed) (d : Date) (k : Nat)
    (hrun : ∀ i, i < k → daysBack d i ∈ prev :: tail) (hd : d ≠ prev) :
    ∀ i, i < k → daysBack d i ∈ tail := by
  intro i hi
  have hd0 : d ∈ prev :: tail := hrun 0 (Nat.lt_of_le_of_lt (Nat.zero_le i) hi)
  have hdt : d ∈ tail := (List.mem_cons.mp hd0).resolve_left hd
  have hlt : d < prev := (List.pairwise_cons.mp hsorted).1 d hdt
  have hle : daysBack d i < prev := by
    rcases Nat.eq_zero_or_pos i with h0 | h0
    · subst h0; exact hlt
    · exact lt_trans (daysBack_lt d (hwf d hd0) i h0) hlt
  exact (List.mem_cons.mp (hrun i hi)).resolve_left (ne_of_lt hle)

/-- The rest of a run that starts at the head of a descending list lies in
the tail. -/
theorem run_shift (prev : Date) (tail : List Date)
    (hwf : ∀ x ∈ prev :: tail, x.WellFormed) (k : Nat)
    (hrun : ∀ i, i < k → daysBack prev i ∈ prev :: tail) :
    ∀ i, i + 1 < k → daysBack (prevDay prev) i ∈ tail := by
  intro i hi
  rw [daysBack_prevDay]
  have hlt := daysBack_lt prev (hwf prev (List.mem_cons_self _ _)) (i + 1) (Nat.succ_pos i)
  exact (List.mem_cons.mp (hrun (i + 1) hi)).resolve_left (ne_of_lt hlt)

/-- The second loop on a descending list of dates: the result is at least
the running maximum, at least the length of every run of consecutive days in
the list that starts after `prev`, and at least the length of the run that
`currentLongest` counts, continued from `prev`. -/
theorem longestStreakLoop_bound (rest : List Date) :
    ∀ (prev : Date) (cl l : Nat), (prev :: rest).Pairwise (fun a b => b < a) →
      (∀ x ∈ prev :: rest, x.WellFormed) → 1 ≤ cl → cl ≤ l →
      l ≤ longestStreakLoop prev rest cl l ∧
      (∀ d k, (∀ i, i < k → daysBack d i ∈ prev :: rest) → d ≠ prev →
        k ≤ longestStreakLoop prev rest cl l) ∧
      (∀ k, (∀ i, i < k → daysBack prev i ∈ prev :: rest) →
        k + cl ≤ longestStreakLoop prev rest cl l + 1) := by
  induction rest with
  | nil =>
    intro prev cl l _ hwf hcl hle
    have hprev := hwf prev (List.mem_cons_self _ _)
    refine ⟨le_refl _, fun d k hrun hd => ?_, fun k hrun => ?_⟩
    · rcases Nat.eq_zero_or_pos k with h0 | h0
      · subst h0; exact Nat.zero_le _
      · exact absurd (List.mem_singleton.mp (hrun 0 h0)) hd
    · have hk : k ≤ 1 := by
        by_contra hk
        have h1 := List.mem_singleton.mp (hrun 1 (by omega))
        exact absurd h1 (ne_of_lt (daysBack_lt prev hprev 1 Nat.one_pos))
      simp only [longestStreakLoop]
      omega
  | cons curr rest ih =>
    intro prev cl l hsorted hwf hcl hle
    have hprev := hwf prev (List.mem_cons_self _ _)
    have hcurr := hwf curr (List.mem_cons_of_mem _ (List.mem_cons_self _ _))
    have hsorted2 := (List.pairwise_cons.mp hsorted).2
    have hwf2 : ∀ x ∈ curr :: rest, x.WellFormed := fun x hx => hwf x (List.mem_cons_of_mem _ hx)
    have hcurrlt : curr < prev := (List.pairwise_cons.mp hsorted).1 curr (List.mem_cons_self _ _)
    by_cases hadj : (utcMillis prev - utcMillis curr) / (1000 * 60 * 60 * 24) = 1
    · have hcp : curr = prevDay prev := (adjacent_iff prev curr hprev hcurr).mp hadj
      obtain ⟨hA, hB, hC⟩ := ih curr (cl + 1) (max l (cl + 1)) hsorted2 hwf2 (by omega)
        (le_max_right _ _)
      simp only [longestStreakLoop, hadj, if_true]
      refine ⟨le_trans (le_max_left _ _) hA, fun d k hrun hd => ?_, fun k hrun => ?_⟩
      · have hrun2 := run_in_tail prev (curr :: rest) hsorted hwf d k hrun hd
        by_cases hdc : d = curr
        · subst hdc
          have := hC k hrun2
          omega
        · exact hB d k hrun2 hdc
      · rcases Nat.eq_zero_or_pos k with h0 | h0
        · subst h0
          have := le_trans (le_max_left l (cl + 1)) hA
          omega
        · have hrun2 := run_shift prev (curr :: rest) hwf k hrun
          rw [← hcp] at hrun2
          have := hC (k - 1) (fun i hi => hrun2 i (by omega))
          omega
    · have hcp : curr ≠ prevDay prev := fun h => hadj ((adjacent_iff prev curr hprev hcurr).mpr h)
      obtain ⟨hA, hB, hC⟩ := ih curr 1 l hsorted2 hwf2 (le_refl 1) (le_trans hcl hle)
      simp only [longestStreakLoop, hadj, if_false]
      refine ⟨hA, fun d k hrun hd => ?_, fun k hrun => ?_⟩
      · have hrun2 := run_in_tail prev (curr :: rest) hsorted hwf d k hrun hd
        by_cases hdc : d = curr
        · subst hdc
          have := hC k hrun2
          omega
        · exact hB d k hrun2 hdc
      · have hk : k ≤ 1 := by
          by_contra hk
          have h1 : daysBack (prevDay prev) 0 ∈ curr :: rest :=
            run_shift prev (curr :: rest) hwf k hrun 0 (by omega)
          have h2 : prevDay prev ≤ curr := by
            rcases List.mem_cons.mp h1 with h | h
            · exact le_of_eq h
            · exact le_of_lt ((List.pairwise_cons.mp hsorted2).1 _ h)
          exact hcp (le_antisymm (le_prevDay_of_lt prev curr hprev hcurr hcurrlt) h2)
        omega

/-- The result of the second loop is the length of a run of consecutive days
that all satisfy `P`, when the list is within `P` and both counters are. -/
theorem longestStreakLoop_attained (P : Date → Prop) (rest : List Date) :
    ∀ (prev : Date) (cl l : Nat), (∀ x ∈ prev :: rest, P x) →
      (∀ x ∈ prev :: rest, x.WellFormed) → 1 ≤ cl →
      (∃ d, (∀ i, i < cl → P (daysBack d i)) ∧ daysBack d (cl - 1) = prev) →
      (∃ d, ∀ i, i < l → P (daysBack d i)) →
      ∃ d, ∀ i, i < longestStreakLoop prev rest cl l → P (daysBack d i) := by
  induction rest with
  | nil =>
    intro prev cl l _ _ _ _ hl
    simpa only [longestStreakLoop] using hl
  | cons curr rest ih =>
    intro prev cl l hP hwf hcl hrun hl
    have hprev := hwf prev (List.mem_cons_self _ _)
    have hcurr := hwf curr (List.mem_cons_of_mem _ (List.mem_cons_self _ _))
    have hP2 : ∀ x ∈ curr :: rest, P x := fun x hx => hP x (List.mem_cons_of_mem _ hx)
    have hwf2 : ∀ x ∈ curr :: rest, x.WellFormed := fun x hx => hwf x (List.mem_cons_of_mem _ hx)
    by_cases hadj : (utcMillis prev - utcMillis curr) / (1000 * 60 * 60 * 24) = 1
    · have hcp : curr = prevDay prev := (adjacent_iff prev curr hprev hcurr).mp hadj
      simp only [longestStreakLoop, hadj, if_true]
      obtain ⟨d, hd, hend⟩ := hrun
      have hnext : daysBack d cl = curr := by
        have h1 : cl = (cl - 1) + 1 := by omega
        rw [h1, daysBack_succ, hend, hcp]
      have hrun2 : ∃ d, (∀ i, i < cl + 1 → P (daysBack d i)) ∧
          daysBack d (cl + 1 - 1) = curr := by
        refine ⟨d, fun i hi => ?_, by simpa using hnext⟩
        rcases Nat.lt_or_ge i cl with h | h
        · exact hd i h
        · have hi2 : i = cl := by omega
          rw [hi2, hnext]
          exact hP2 curr (List.mem_cons_self _ _)
      refine ih curr (cl + 1) (max l (cl + 1)) hP2 hwf2 (by omega) hrun2 ?_
      rcases le_total l (cl + 1) with h | h
      · rw [max_eq_right h]
        exact ⟨hrun2.choose, hrun2.choose_spec.1⟩
      · rw [max_eq_left h]
        exact hl
    · simp only [longestStreakLoop, hadj, if_false]
      refine ih curr 1 l hP2 hwf2 (le_refl 1) ⟨curr, fun i hi => ?_, rfl⟩ hl
      have hi0 : i = 0 := by omega
      rw [hi0]
      exact hP2 curr (List.mem_cons_self _ _)

/-- The dates `sortedEntries` are the dates on which the habit is completed. -/
theorem mem_completedDatesDesc (entries : List Entry) (habitId : Nat) (d : Date) :
    d ∈ completedDatesDesc entries habitId ↔ completedOn entries habitId d := by
  have hperm := List.perm_insertionSort (fun a b : Date => a ≤ b)
    ((entries.filter (fun e => e.completed habitId)).map (fun e => e.date))
  unfold completedDatesDesc
  rw [List.mem_reverse, hperm.mem_iff]
  simp only [List.mem_map, List.mem_filter, completedOn]
  constructor
  · rintro ⟨e, ⟨he, hc⟩, rfl⟩
    exact ⟨e, he, rfl, hc⟩
  · rintro ⟨e, he, rfl, hc⟩
    exact ⟨e, ⟨he, hc⟩, rfl⟩

/-- With distinct entry dates, `sortedEntries` is strictly descending. -/
theorem completedDatesDesc_sorted (entries : List Entry) (habitId : Nat)
    (hdistinct : (entries.map (fun e => e.date)).Nodup) :
    (completedDatesDesc entries habitId).Pairwise (fun a b => b < a) := by
  have hnodup : (completedDatesDesc entries habitId).Nodup := by
    have hperm := List.perm_insertionSort (fun a b : Date => a ≤ b)
      ((entries.filter (fun e => e.completed habitId)).map (fun e => e.date))
    unfold completedDatesDesc
    rw [List.nodup_reverse, hperm.nodup_iff]
    exact hdistinct.sublist ((List.filter_sublist _).map _)
  have hsorted : (completedDatesDesc entries habitId).Pairwise (fun a b => b ≤ a) := by
    simp only [completedDatesDesc, List.pairwise_reverse]
    exact List.sorted_insertionSort (fun a b : Date => a ≤ b) _
  exact (hsorted.and hnodup).imp (fun h => lt_of_le_of_ne h.1 (fun heq => h.2 heq.symm))

/-- In a zone that keeps one offset from UTC, `setDate(getDate() - 1)` takes
24 hours off the time value: `checkDate` steps to the previous calendar day. -/
theorem stepBack_fixed (zone : TimeZone) (hz : zone.Fixed) (d : Date) :
    stepBack zone d = prevDay d := by
  obtain ⟨c, hoff, hutc⟩ := hz
  have hu : (utcMillis d + c - 86400000 - c) / 86400000 - epochDay d = -1 := by
    have h1 : utcMillis d + c - 86400000 - c = (epochDay d - 1) * 86400000 := by
      unfold utcMillis
      ring
    rw [h1, Int.mul_ediv_cancel _ (by decide)]
    ring
  unfold stepBack
  simp only [hoff, hutc, hu]
  rfl

/-- The first loop on a descending list of dates none of which is after
`checkDate`: it counts the days, back from `checkDate`, that are in the list,
up to the first day that is not. -/
theorem currentStreakLoop_spec (zone : TimeZone) (hz : zone.Fixed) (dates : List Date) :
    ∀ (checkDate : Date) (n : Nat), dates.Pairwise (fun a b => b < a) →
      (∀ x ∈ dates, x.WellFormed) → checkDate.WellFormed → (∀ x ∈ dates, x ≤ checkDate) →
      n ≤ currentStreakLoop zone dates checkDate n ∧
      (∀ i, i < currentStreakLoop zone dates checkDate n - n → daysBack checkDate i ∈ dates) ∧
      daysBack checkDate (currentStreakLoop zone dates checkDate n - n) ∉ dates := by
  induction dates with
  | nil =>
    intro checkDate n _ _ _ _
    simp [currentStreakLoop]
  | cons x rest ih =>
    intro checkDate n hsorted hwf hcheck hle
    have hx := List.pairwise_cons.mp hsorted
    by_cases heq : x = checkDate
    · subst heq
      have hle2 : ∀ y ∈ rest, y ≤ prevDay x := fun y hy =>
        le_prevDay_of_lt x y hcheck (hwf y (List.mem_cons_of_mem _ hy)) (hx.1 y hy)
      obtain ⟨h1, h2, h3⟩ := ih (prevDay x) (n + 1) hx.2
        (fun y hy => hwf y (List.mem_cons_of_mem _ hy)) (prevDay_wellFormed x hcheck) hle2
      simp only [currentStreakLoop, if_true, stepBack_fixed zone hz]
      refine ⟨by omega, fun i hi => ?_, ?_⟩
      · rcases Nat.eq_zero_or_pos i with h0 | h0
        · subst h0; exact List.mem_cons_self _ _
        · obtain ⟨j, rfl⟩ : ∃ j, i = j + 1 := ⟨i - 1, by omega⟩
          rw [← daysBack_prevDay]
          exact List.mem_cons_of_mem _ (h2 j (by omega))
      · obtain ⟨j, hj⟩ : ∃ j, currentStreakLoop zone rest (prevDay x) (n + 1) - n = j + 1 :=
          ⟨currentStreakLoop zone rest (prevDay x) (n + 1) - n - 1, by omega⟩
        have hj2 : currentStreakLoop zone rest (prevDay x) (n + 1) - (n + 1) = j := by omega
        rw [hj, ← daysBack_prevDay]
        rw [hj2] at h3
        intro hmem
        rcases List.mem_cons.mp hmem with h | h
        · have hlt := daysBack_lt x hcheck (j + 1) (Nat.succ_pos j)
          rw [← daysBack_prevDay, h] at hlt
          exact lt_irrefl _ hlt
        · exact h3 h
    · have hxlt : x < checkDate :=
        lt_of_le_of_ne (hle x (List.mem_cons_self _ _)) heq
      simp only [currentStreakLoop, heq, if_false, Nat.sub_self]
      refine ⟨le_refl _, fun i hi => absurd hi (Nat.not_lt_zero i), ?_⟩
      intro hmem
      rcases List.mem_cons.mp hmem with h | h
      · exact heq h.symm
      · exact lt_irrefl _ (lt_trans (hx.1 _ h) hxlt)

/-! ## Saving twice, deleting a habit -/

theorem Store.put_put {κ α : Type} [LinearOrder κ] (key : α → κ) (r : α) (l : List α) :
    Store.put key r (Store.put key r l) = Store.put key r l := by
  induction l with
  | nil => simp [Store.put]
  | cons x xs ih =>
    by_cases h1 : key r < key x
    · simp [Store.put, h1]
    · by_cases h2 : key x < key r
      · simp only [Store.put, h1, h2, if_true, if_false, ih]
      · simp [Store.put, h1, h2]

/-- After `put(r)` on an ordered store exactly one record has the key of `r`:
`r` itself. -/
theorem Store.filter_put {κ α : Type} [LinearOrder κ] [DecidableEq κ] (key : α → κ) (r : α)
    (l : List α) (h : Store.Ordered key l) :
    (Store.put key r l).filter (fun x => decide (key x = key r)) = [r] := by
  have hnone : ∀ (k : κ) (xs : List α), (∀ y ∈ xs, k < key y) →
      xs.filter (fun x => decide (key x = k)) = [] := by
    intro k xs hxs
    rw [List.filter_eq_nil_iff]
    intro y hy
    simpa using ne_of_gt (hxs y hy)
  induction l with
  | nil => simp [Store.put]
  | cons x xs ih =>
    have hx := List.pairwise_cons.mp h
    by_cases h1 : key r < key x
    · have hxs : ∀ y ∈ x :: xs, key r < key y := by
        intro y hy
        rcases List.mem_cons.mp hy with rfl | hy
        · exact h1
        · exact lt_trans h1 (hx.1 y hy)
      simp only [Store.put, h1, if_true]
      rw [List.filter_cons_of_pos (by simp), hnone (key r) (x :: xs) hxs]
    · by_cases h2 : key x < key r
      · simp only [Store.put, h1, h2, if_true, if_false]
        rw [List.filter_cons_of_neg (by simpa using ne_of_lt h2)]
        exact ih hx.2
      · have hxr : key x = key r := le_antisymm (not_lt.mp h1) (not_lt.mp h2)
        simp only [Store.put, h1, h2, if_false]
        rw [List.filter_cons_of_pos (by simp),
          hnone (key r) xs (fun y hy => hxr ▸ hx.1 y hy)]

theorem Obj.lookup_delete_of_ne (o : Obj) (k k1 : String) (h : k1 ≠ k) :
    List.lookup k1 (Obj.delete o k) = List.lookup k1 o := by
  induction o with
  | nil => rfl
  | cons p rest ih =>
    obtain ⟨k0, v0⟩ := p
    simp only [Obj.delete] at ih
    by_cases h0 : k0 = k
    · subst h0
      simp only [Obj.delete, List.filter_cons, bne_self_eq_false, Bool.false_eq_true, if_false,
        ih, Obj.lookup_cons_ne _ _ _ _ h]
    · have hb : (k0 != k) = true := by simpa using h0
      simp only [Obj.delete, List.filter_cons, hb, if_true]
      by_cases h1 : k1 = k0
      · subst h1; simp [Obj.lookup_cons_eq]
      · simp only [Obj.lookup_cons_ne _ _ _ _ h1, ih]

theorem forall₂_map_right {α : Type} {R : α → α → Prop} (f : α → α) (l : List α)
    (h : ∀ a ∈ l, R a (f a)) : List.Forall₂ R l (l.map f) := by
  induction l with
  | nil => exact List.Forall₂.nil
  | cons a rest ih =>
    exact List.Forall₂.cons (h a (List.mem_cons_self _ _))
      (ih (fun b hb => h b (List.mem_cons_of_mem _ hb)))

/-! ## The two streak loops compared -/

theorem currentStreakLoop_add (zone : TimeZone) (dates : List Date) :
    ∀ (checkDate : Date) (n : Nat),
      currentStreakLoop zone dates checkDate n = n + currentStreakLoop zone dates checkDate 0 := by
  induction dates with
  | nil => intro _ _; simp [currentStreakLoop]
  | cons x rest ih =>
    intro checkDate n
    by_cases h : x = checkDate
    · simp only [currentStreakLoop, h, if_true]
      rw [ih (stepBack zone checkDate) (n + 1), ih (stepBack zone checkDate) (0 + 1)]
      omega
    · simp [currentStreakLoop, h]

theorem le_longestStreakLoop (rest : List Date) :
    ∀ (prev : Date) (cl l : Nat), l ≤ longestStreakLoop prev rest cl l := by
  induction rest with
  | nil => intro _ _ _; simp [longestStreakLoop]
  | cons curr rest ih =>
    intro prev cl l
    simp only [longestStreakLoop]
    split_ifs
    · exact le_trans (le_max_left _ _) (ih curr _ _)
    · exact ih curr _ _

/-- The second loop counts at least the run that `currentLongest` stands for,
continued by the days the first loop would count from the day before `prev`. -/
theorem current_le_longestStreakLoop (zone : TimeZone) (hz : zone.Fixed) (rest : List Date) :
    ∀ (prev : Date) (cl l : Nat), (∀ x ∈ prev :: rest, x.WellFormed) → cl ≤ l →
      cl + currentStreakLoop zone rest (prevDay prev) 0 ≤ longestStreakLoop prev rest cl l := by
  induction rest with
  | nil =>
    intro prev cl l _ hle
    simpa [currentStreakLoop, longestStreakLoop] using hle
  | cons curr rest ih =>
    intro prev cl l hwf hle
    have hprev := hwf prev (List.mem_cons_self _ _)
    have hcurr := hwf curr (List.mem_cons_of_mem _ (List.mem_cons_self _ _))
    by_cases h : curr = prevDay prev
    · have hadj := (adjacent_iff prev curr hprev hcurr).mpr h
      have hih := ih curr (cl + 1) (max l (cl + 1))
        (fun x hx => hwf x (List.mem_cons_of_mem _ hx)) (le_max_right _ _)
      have hcur : currentStreakLoop zone (curr :: rest) (prevDay prev) 0 =
          1 + currentStreakLoop zone rest (prevDay curr) 0 := by
        simp only [currentStreakLoop, h, if_true, stepBack_fixed zone hz]
        exact currentStreakLoop_add zone rest _ (0 + 1)
      have hlong : longestStreakLoop prev (curr :: rest) cl l =
          longestStreakLoop curr rest (cl + 1) (max l (cl + 1)) := by
        simp only [longestStreakLoop, hadj, if_true]
      rw [hcur, hlong]
      omega
    · have := le_longestStreakLoop (curr :: rest) prev cl l
      simp only [currentStreakLoop, h, if_false]
      omega

/-- In a zone that keeps one offset from UTC the first loop counts a run of
calendar days, which the second loop counts too. -/
theorem current_le_longest_fixed (zone : TimeZone) (hz : zone.Fixed) (entries : List Entry)
    (habitId : Nat) (today : Date) (hvalid : ∀ e ∈ entries, e.date.Valid) :
    (calculateHabitStreak zone entries habitId today).current ≤
      (calculateHabitStreak zone entries habitId today).longest := by
  have hwf : ∀ x ∈ completedDatesDesc entries habitId, x.WellFormed := by
    intro x hx
    obtain ⟨e, he, rfl, -⟩ := (mem_completedDatesDesc entries habitId x).mp hx
    exact (hvalid e he).2.2
  cases hL : completedDatesDesc entries habitId with
  | nil => simp only [calculateHabitStreak, hL, le_refl]
  | cons first rest =>
    rw [hL] at hwf
    simp only [calculateHabitStreak, hL]
    by_cases h : first = today
    · have := current_le_longestStreakLoop zone hz rest first 1 1 hwf (le_refl 1)
      simp only [currentStreakLoop, h, if_true, stepBack_fixed zone hz]
      rw [currentStreakLoop_add zone rest (prevDay today) (0 + 1)]
      rw [h] at this
      omega
    · simp only [currentStreakLoop, h, if_false]
      exact Nat.zero_le _

/-! ## Adding and renaming a habit -/

/-- With the key generator ahead of the store, `addHabit` appends the new
record under the generator's number. -/
theorem addHabit_ok (db : DB) (hgen : db.KeyGenAhead) (name now : String) :
    addHabit db name now = .ok
      ({ db with
         habits := db.habits ++
           [{ id := db.habitKeyGen, name := jsTrim name, createdAt := now }]
         habitKeyGen := db.habitKeyGen + 1 }, db.habitKeyGen) := by
  have hany : (db.habits.any (fun y => decide (y.id = db.habitKeyGen))) = false := by
    rw [List.any_eq_false]
    intro y hy
    simpa using ne_of_lt (hgen y hy)
  simp only [addHabit, addHabitRecord, Store.add, hany]
  rw [Store.put_append Habit.id { id := db.habitKeyGen, name := jsTrim name, createdAt := now }
    db.habits hgen]
  rfl

/-- Putting a record over the record of the same key, in an ordered store,
replaces that record where it stands. -/
theorem Store.put_eq_map {κ α : Type} [LinearOrder κ] [DecidableEq κ] (key : α → κ) (r : α)
    (l : List α) (h : Store.Ordered key l) (hmem : ∃ x ∈ l, key x = key r) :
    Store.put key r l = l.map (fun x => if key x = key r then r else x) := by
  induction l with
  | nil =>
    obtain ⟨x, hx, -⟩ := hmem
    exact absurd hx (List.not_mem_nil x)
  | cons y ys ih =>
    obtain ⟨x, hx, hxr⟩ := hmem
    have hy := List.pairwise_cons.mp h
    have hle : key y ≤ key r := by
      rcases List.mem_cons.mp hx with rfl | hx
      · exact le_of_eq hxr
      · exact hxr ▸ le_of_lt (hy.1 x hx)
    have h1 : ¬ key r < key y := not_lt.mpr hle
    by_cases h2 : key y < key r
    · have hx2 : x ∈ ys := by
        rcases List.mem_cons.mp hx with rfl | hx
        · exact absurd hxr (ne_of_lt h2)
        · exact hx
      simp only [Store.put, h1, h2, if_true, if_false, List.map_cons, ne_of_lt h2]
      rw [ih hy.2 ⟨x, hx2, hxr⟩]
    · have hyr : key y = key r := le_antisymm hle (not_lt.mp h2)
      have hys : ys.map (fun x => if key x = key r then r else x) = ys := by
        conv_rhs => rw [← List.map_id ys]
        apply List.map_congr_left
        intro z hz
        have : key z ≠ key r := ne_of_gt (hyr ▸ hy.1 z hz)
        simp only [this, if_false, id]
      rw [List.map_cons, hys]
      simp only [Store.put, h1, h2, if_false, hyr, if_true, lt_irrefl]

theorem Store.get_eq_some {κ α : Type} [DecidableEq κ] (key : α → κ) (k : κ) (l : List α)
    (x : α) (h : Store.get key k l = some x) : x ∈ l ∧ key x = k := by
  simp only [Store.get] at h
  exact ⟨List.mem_of_find?_eq_some h, by simpa using List.find?_some h⟩

theorem Store.get_eq_none {κ α : Type} [DecidableEq κ] (key : α → κ) (k : κ) (l : List α) :
    Store.get key k l = none ↔ ∀ x ∈ l, key x ≠ k := by
  simp [Store.get]

theorem Store.eq_of_key_eq {κ α : Type} [LinearOrder κ] (key : α → κ) (l : List α)
    (h : Store.Ordered key l) (x y : α) (hx : x ∈ l) (hy : y ∈ l) (hk : key x = key y) :
    x = y := by
  induction l with
  | nil => exact absurd hx (List.not_mem_nil x)
  | cons z zs ih =>
    have hz := List.pairwise_cons.mp h
    rcases List.mem_cons.mp hx with hxz | hxs
    · rcases List.mem_cons.mp hy with hyz | hys
      · exact hxz.trans hyz.symm
      · exact absurd hk (hxz ▸ ne_of_lt (hz.1 y hys))
    · rcases List.mem_cons.mp hy with hyz | hys
      · exact absurd hk.symm (hyz ▸ ne_of_lt (hz.1 x hxs))
      · exact ih hz.2 hxs hys

/-! ## Sorting by date -/

/-- An insertion sort by a key of distinct values is strictly ascending. -/
theorem insertionSort_strict {α : Type} (key : α → Date) (l : List α)
    (h : (l.map key).Nodup) :
    (l.insertionSort (fun a b => key a ≤ key b)).Pairwise (fun a b => key a < key b) := by
  haveI : IsTotal α (fun a b => key a ≤ key b) := ⟨fun a b => le_total (key a) (key b)⟩
  haveI : IsTrans α (fun a b => key a ≤ key b) := ⟨fun _ _ _ hab hbc => le_trans hab hbc⟩
  have hsorted : (l.insertionSort (fun a b => key a ≤ key b)).Pairwise
      (fun a b => key a ≤ key b) := List.sorted_insertionSort (fun a b => key a ≤ key b) l
  have hperm := List.perm_insertionSort (fun a b => key a ≤ key b) l
  have hnodup : ((l.insertionSort (fun a b => key a ≤ key b)).map key).Nodup :=
    (hperm.map key).nodup_iff.mpr h
  have hne : (l.insertionSort (fun a b => key a ≤ key b)).Pairwise
      (fun a b => key a ≠ key b) := (List.pairwise_map).mp hnodup
  exact (hsorted.and hne).imp (fun hab => lt_of_le_of_ne hab.1 hab.2)

/-! ## Sorting by rate -/

/-- Inserting a pair into a list keeps, among the pairs of any one rate, the
order of the list, the new pair coming first. -/
theorem filter_orderedInsert_rate (a : HabitRate) (l : List HabitRate) (r : Nat) :
    (l.orderedInsert (fun a b => b.rate ≤ a.rate) a).filter (fun p => decide (p.rate = r)) =
      if a.rate = r then a :: l.filter (fun p => decide (p.rate = r))
      else l.filter (fun p => decide (p.rate = r)) := by
  induction l with
  | nil => by_cases h : a.rate = r <;> simp [List.orderedInsert, h]
  | cons b rest ih =>
    by_cases hab : b.rate ≤ a.rate
    · simp only [List.orderedInsert, if_pos hab]
      by_cases h : a.rate = r <;> simp [List.filter_cons, h]
    · have hne : a.rate = r → ¬ b.rate = r := fun h1 h2 => hab (by omega)
      simp only [List.orderedInsert, hab, if_false, List.filter_cons, ih]
      by_cases h : a.rate = r
      · simp [h, hne h]
      · by_cases hb : b.rate = r <;> simp [h, hb]

/-- The sort of `getMostConsistentHabits` is stable: among the pairs of any
one rate it keeps the order of its input. -/
theorem filter_insertionSort_rate (l : List HabitRate) (r : Nat) :
    (l.insertionSort (fun a b => b.rate ≤ a.rate)).filter (fun p => decide (p.rate = r)) =
      l.filter (fun p => decide (p.rate = r)) := by
  induction l with
  | nil => rfl
  | cons a rest ih =>
    simp only [List.insertionSort, filter_orderedInsert_rate, ih, List.filter_cons]
    by_cases h : a.rate = r <;> simp [h]

theorem sorted_insertionSort_rate (l : List HabitRate) :
    (l.insertionSort (fun a b => b.rate ≤ a.rate)).Pairwise (fun a b => b.rate ≤ a.rate) := by
  haveI : IsTotal HabitRate (fun a b => b.rate ≤ a.rate) := ⟨fun a b => le_total b.rate a.rate⟩
  haveI : IsTrans HabitRate (fun a b => b.rate ≤ a.rate) :=
    ⟨fun _ _ _ hab hbc => le_trans hbc hab⟩
  exact List.sorted_insertionSort (fun a b : HabitRate => b.rate ≤ a.rate) l

/-! ## Counting words -/

theorem splitWhiteSpaceAux_count (cs : List Char) :
    ∀ (cur : List Char) (inSep : Bool), (inSep = true → cur = []) →
      ((splitWhiteSpaceAux cs cur inSep).filter (fun w => decide (0 < w.length))).length =
        if cur = [] then countRunsAux true cs else 1 + countRunsAux false cs := by
  induction cs with
  | nil =>
    intro cur inSep _
    by_cases hcur : cur = []
    · simp [splitWhiteSpaceAux, countRunsAux, hcur]
    · have hpos : 0 < cur.length := List.length_pos.mpr hcur
      simp [splitWhiteSpaceAux, countRunsAux, hcur, hpos]
  | cons c rest ih =>
    intro cur inSep hsep
    by_cases hc : isWhiteSpace c = true
    · by_cases hs : inSep = true
      · have hcur := hsep hs
        have h := ih [] true (fun _ => rfl)
        simp only [if_true] at h
        simp only [splitWhiteSpaceAux, hc, hs, if_true, hcur, countRunsAux]
        exact h
      · have h := ih [] true (fun _ => rfl)
        simp only [if_true] at h
        by_cases hcur : cur = []
        · simp [splitWhiteSpaceAux, hc, hs, hcur, countRunsAux, h]
        · have hpos : 0 < cur.length := List.length_pos.mpr hcur
          simp [splitWhiteSpaceAux, hc, hs, hcur, countRunsAux, h, hpos]
          omega
    · have h := ih (c :: cur) false (fun h => absurd h (by decide))
      simp only [List.cons_ne_nil, if_false] at h
      by_cases hcur : cur = []
      · simp [splitWhiteSpaceAux, hc, hcur, countRunsAux, h] at *
        exact h
      · simp [splitWhiteSpaceAux, hc, hcur, countRunsAux, h]

theorem countRunsAux_dropWhile (cs : List Char) :
    countRunsAux true (cs.dropWhile isWhiteSpace) = countRunsAux true cs := by
  induction cs with
  | nil => rfl
  | cons c rest ih =>
    by_cases hc : isWhiteSpace c = true
    · simp only [List.dropWhile_cons, hc, if_true, countRunsAux, ih]
    · simp only [List.dropWhile_cons, hc]
      rfl

theorem countRunsAux_append_space (c : Char) (hc : isWhiteSpace c = true) (cs : List Char) :
    ∀ b, countRunsAux b (cs ++ [c]) = countRunsAux b cs := by
  induction cs with
  | nil => intro b; simp [countRunsAux, hc]
  | cons d rest ih =>
    intro b
    have h1 := ih true
    have h2 := ih false
    simp only [List.cons_append, countRunsAux, List.append_eq, h1, h2]

theorem countRunsAux_dropWhile_end (cs : List Char) (b : Bool) :
    countRunsAux b ((cs.reverse.dropWhile isWhiteSpace).reverse) = countRunsAux b cs := by
  induction cs using List.reverseRecOn with
  | nil => rfl
  | append_singleton xs c ih =>
    by_cases hc : isWhiteSpace c = true
    · simp only [List.reverse_append, List.reverse_cons, List.reverse_nil, List.nil_append,
        List.singleton_append, List.dropWhile_cons, hc, if_true]
      rw [ih, countRunsAux_append_space c hc]
    · simp only [List.reverse_append, List.reverse_cons, List.reverse_nil, List.nil_append,
        List.singleton_append, List.dropWhile_cons, hc]
      simp

/-- The words `journal.trim().split(/\s+/)` keeps are the maximal runs of
characters that are not white space. -/
theorem wordCount_eq_countRuns (s : String) : wordCount s = countRuns s := by
  unfold wordCount splitWhiteSpace countRuns
  rw [splitWhiteSpaceAux_count _ [] false (fun h => absurd h (by decide))]
  simp only [if_true]
  unfold trimChars
  rw [countRunsAux_dropWhile_end, countRunsAux_dropWhile]

theorem foldl_add_eq_sum (f : Entry → Nat) (l : List Entry) :
    ∀ n, l.foldl (fun sum e => sum + f e) n = n + (l.map f).sum := by
  induction l with
  | nil => intro n; simp
  | cons a rest ih => intro n; simp only [List.foldl_cons, ih, List.map_cons, List.sum_cons]; omega

/-- The test of the code on a journal that is a string or falsy. -/
theorem journaled_eq_hasJournalText (e : Entry) (h : e.journalOk = true) :
    e.journaled = e.hasJournalText := by
  unfold Entry.journaled Entry.hasJournalText journalText
  unfold Entry.journalOk at h
  cases hj : e.journal with
  | prim p =>
    cases p with
    | str s =>
      simp only [JSVal.truthy, Prim.truthy, jsTrim, String.length]
      by_cases hs : s = ""
      · subst hs; decide
      · by_cases ht : trimChars s.data = []
        · simp [ht, hs]
        · have hpos : 0 < (trimChars s.data).length := List.length_pos.mpr ht
          have hne : (s != "") = true := by simpa using hs
          have hemp : (trimChars s.data).isEmpty = false := by
            cases hte : trimChars s.data with
            | nil => exact absurd hte ht
            | cons x xs => rfl
          rw [hne, hemp, decide_eq_true hpos]
          rfl
    | _ =>
      rw [hj] at h
      simp [JSVal.truthy] at h ⊢
      simp [h]
  | arr a => rw [hj] at h; simp [JSVal.truthy] at h
  | obj o => rw [hj] at h; simp [JSVal.truthy] at h

/-! # The claims -/

/-- C1 (as amended): after `deleteHabit(id)` no entry returned by
`getAllEntries()` holds a truthy value under `id` in its `habitCompletions`:
every entry that held one is now an entry without the key `id`. -/
theorem deleteHabit_clears_truthy_completions (db : DB) (id : Nat) :
    (∀ e ∈ getAllEntries (deleteHabit db id), e.completed id = false) ∧
      (∀ e0 ∈ getAllEntries db, e0.completed id = true →
        ∃ e ∈ getAllEntries (deleteHabit db id), e.date = e0.date ∧
          ∃ o, e.habitCompletions = some o ∧ Obj.has o (propKey id) = false) := by
  constructor
  · intro e he
    simp only [getAllEntries, deleteHabit, removeHabitFromEntries, List.mem_map] at he
    obtain ⟨e0, -, rfl⟩ := he
    cases hc : e0.habitCompletions with
    | none => simp only [Entry.completed, hc]
    | some o =>
      simp only []
      by_cases ht : (Obj.get o (propKey id)).truthy = true
      · rw [if_pos ht]
        simp only [Entry.completed, Obj.get_delete_self]
        rfl
      · rw [if_neg ht]
        simp only [Entry.completed, hc]
        simpa using ht
  · intro e0 he0 hdone
    cases hc : e0.habitCompletions with
    | none => simp [Entry.completed, hc] at hdone
    | some o =>
      have ht : (Obj.get o (propKey id)).truthy = true := by
        simpa [Entry.completed, hc] using hdone
      refine ⟨{ e0 with habitCompletions := some (Obj.delete o (propKey id)) }, ?_, rfl,
        Obj.delete o (propKey id), rfl, Obj.has_delete_self o (propKey id)⟩
      simp only [getAllEntries, deleteHabit, removeHabitFromEntries, List.mem_map]
      refine ⟨e0, he0, ?_⟩
      simp only [hc, ht, if_true]

theorem deleteHabit_clears_truthy_completions_witness :
    bareEntry ⟨2024, 1, 1⟩ (some []) ∈ getAllEntries (deleteHabit dbDoneOnce 1) ∧
      (bareEntry ⟨2024, 1, 1⟩ (some [])).completed 1 = false :=
  ⟨by decide,
    (deleteHabit_clears_truthy_completions dbDoneOnce 1).1 (bareEntry ⟨2024, 1, 1⟩ (some []))
      (by decide)⟩

/-- C1 fails as stated: a key `id` stored with the value `false` is still a
key of the entry after `deleteHabit(id)`. -/
theorem deleteHabit_keeps_falsy_key :
    ∃ e ∈ getAllEntries (deleteHabit dbNotDone 1),
      ∃ o, e.habitCompletions = some o ∧ Obj.has o (propKey 1) = true :=
  ⟨bareEntry ⟨2024, 1, 1⟩ (some [("1", .prim (.bool false))]), by decide, _, rfl, by decide⟩

/-- C2 (as amended): on a host whose time zone keeps one offset from UTC,
with distinct canonical entry dates and no completion dated after `today`,
`calculateHabitStreak(habitId).current` is the largest `k` such that the
habit is completed on each of the `k` days `today`, `today-1`, ...; with
completions on 2024-01-01 through 2024-01-05 and today 2024-01-05 the result
is `{current: 5, longest: 5}`. -/
theorem current_streak_counts_back_from_today (zone : TimeZone) (hzone : zone.Fixed)
    (entries : List Entry) (habitId : Nat)
    (today : Date) (hvalid : ∀ e ∈ entries, e.date.Valid)
    (hdistinct : (entries.map (fun e => e.date)).Nodup) (htoday : today.Valid)
    (hpast : ∀ d, completedOn entries habitId d → d ≤ today) :
    IsRun entries habitId today (calculateHabitStreak zone entries habitId today).current ∧
      (∀ k, IsRun entries habitId today k →
        k ≤ (calculateHabitStreak zone entries habitId today).current) ∧
      calculateHabitStreak utcZone (streakEntries.take 5) 1 ⟨2024, 1, 5⟩ =
        { current := 5, longest := 5 } := by
  have hmem := mem_completedDatesDesc entries habitId
  have hsorted := completedDatesDesc_sorted entries habitId hdistinct
  have hwf : ∀ x ∈ completedDatesDesc entries habitId, x.WellFormed := by
    intro x hx
    obtain ⟨e, he, rfl, -⟩ := (hmem x).mp hx
    exact (hvalid e he).2.2
  have hres : (calculateHabitStreak zone entries habitId today).current =
      currentStreakLoop zone (completedDatesDesc entries habitId) today 0 := by
    cases hL : completedDatesDesc entries habitId with
    | nil => simp only [calculateHabitStreak, hL, currentStreakLoop]
    | cons first rest => simp only [calculateHabitStreak, hL]
  obtain ⟨-, h2, h3⟩ := currentStreakLoop_spec zone hzone (completedDatesDesc entries habitId)
    today 0
    hsorted hwf htoday.2.2 (fun x hx => hpast x ((hmem x).mp hx))
  rw [Nat.sub_zero] at h2 h3
  refine ⟨fun i hi => ?_, fun k hrun => ?_, by decide⟩
  · rw [hres] at hi
    exact (hmem _).mp (h2 i hi)
  · rw [hres]
    by_contra hk
    exact h3 ((hmem _).mpr (hrun _ (by omega)))

theorem current_streak_counts_back_from_today_witness :
    utcZone.Fixed ∧ (∀ e ∈ streakEntries.take 5, e.date.Valid) ∧
      ((streakEntries.take 5).map (fun e => e.date)).Nodup ∧
      (⟨2024, 1, 5⟩ : Date).Valid ∧
      (∀ d, completedOn (streakEntries.take 5) 1 d → d ≤ ⟨2024, 1, 5⟩) ∧
      IsRun (streakEntries.take 5) 1 ⟨2024, 1, 5⟩
        (calculateHabitStreak utcZone (streakEntries.take 5) 1 ⟨2024, 1, 5⟩).current :=
  have hzone : utcZone.Fixed := ⟨0, fun _ => rfl, fun l => (sub_zero l).symm⟩
  have hpast : ∀ d, completedOn (streakEntries.take 5) 1 d → d ≤ ⟨2024, 1, 5⟩ := by
    have hall : ∀ e ∈ streakEntries.take 5, e.date ≤ ⟨2024, 1, 5⟩ := by decide
    rintro d ⟨e, he, rfl, -⟩
    exact hall e he
  ⟨hzone, by decide, by decide, by decide, hpast,
    (current_streak_counts_back_from_today utcZone hzone (streakEntries.take 5) 1 ⟨2024, 1, 5⟩
      (by decide) (by decide) (by decide) hpast).1⟩

/-- C2 fails as stated: in the scenario of the claim (completions on
2024-01-01 through 2024-01-05 and on 2024-01-08, today 2024-01-05), on a host
in the zone UTC, the habit is completed on each of the five days that end
today, and the result is `{current: 0, longest: 5}`. -/
theorem current_streak_zero_with_later_completion :
    calculateHabitStreak utcZone streakEntries 1 ⟨2024, 1, 5⟩ =
        { current := 0, longest := 5 } ∧
      IsRun streakEntries 1 ⟨2024, 1, 5⟩ 5 := by
  refine ⟨by decide, fun i hi => ?_⟩
  have hi5 : i = 0 ∨ i = 1 ∨ i = 2 ∨ i = 3 ∨ i = 4 := by omega
  rcases hi5 with rfl | rfl | rfl | rfl | rfl
  · exact ⟨bareEntry ⟨2024, 1, 5⟩ (some [("1", .prim (.bool true))]), by decide, by decide,
      by decide⟩
  · exact ⟨bareEntry ⟨2024, 1, 4⟩ (some [("1", .prim (.bool true))]), by decide, by decide,
      by decide⟩
  · exact ⟨bareEntry ⟨2024, 1, 3⟩ (some [("1", .prim (.bool true))]), by decide, by decide,
      by decide⟩
  · exact ⟨bareEntry ⟨2024, 1, 2⟩ (some [("1", .prim (.bool true))]), by decide, by decide,
      by decide⟩
  · exact ⟨bareEntry ⟨2024, 1, 1⟩ (some [("1", .prim (.bool true))]), by decide, by decide,
      by decide⟩

/-- C3: with distinct canonical entry dates, `calculateHabitStreak(habitId).longest`
is the maximum length of a run of consecutive calendar days on each of which
the habit is completed: some run has that length and no run is longer; the
result is `{current: 0, longest: 0}` when no entry has a truthy completion. -/
theorem longest_streak_is_max_run (zone : TimeZone) (entries : List Entry) (habitId : Nat)
    (today : Date)
    (hvalid : ∀ e ∈ entries, e.date.Valid)
    (hdistinct : (entries.map (fun e => e.date)).Nodup) :
    (∃ d, IsRun entries habitId d (calculateHabitStreak zone entries habitId today).longest) ∧
      (∀ d k, IsRun entries habitId d k →
        k ≤ (calculateHabitStreak zone entries habitId today).longest) ∧
      ((∀ e ∈ entries, e.completed habitId = false) →
        calculateHabitStreak zone entries habitId today = { current := 0, longest := 0 }) := by
  have hmem := mem_completedDatesDesc entries habitId
  have hsorted := completedDatesDesc_sorted entries habitId hdistinct
  have hwf : ∀ x ∈ completedDatesDesc entries habitId, x.WellFormed := by
    intro x hx
    obtain ⟨e, he, rfl, -⟩ := (hmem x).mp hx
    exact (hvalid e he).2.2
  cases hL : completedDatesDesc entries habitId with
  | nil =>
    have hres : calculateHabitStreak zone entries habitId today = { current := 0, longest := 0 } := by
      simp only [calculateHabitStreak, hL]
    rw [hres]
    refine ⟨⟨today, fun i hi => absurd hi (Nat.not_lt_zero i)⟩, fun d k hrun => ?_, fun _ => rfl⟩
    rcases Nat.eq_zero_or_pos k with h0 | h0
    · exact le_of_eq h0
    · have h1 := (hmem (daysBack d 0)).mpr (hrun 0 h0)
      rw [hL] at h1
      exact absurd h1 (List.not_mem_nil _)
  | cons first rest =>
    have hres : (calculateHabitStreak zone entries habitId today).longest =
        longestStreakLoop first rest 1 1 := by
      simp only [calculateHabitStreak, hL]
    rw [hL] at hsorted hwf
    have hP : ∀ x ∈ first :: rest, completedOn entries habitId x := fun x hx =>
      (hmem x).mp (hL ▸ hx)
    have hfirst : completedOn entries habitId first := hP first (List.mem_cons_self _ _)
    have hstart : ∀ i, i < 1 → completedOn entries habitId (daysBack first i) := by
      intro i hi
      have hi0 : i = 0 := by omega
      rw [hi0]
      exact hfirst
    obtain ⟨-, hB, hC⟩ := longestStreakLoop_bound rest first 1 1 hsorted hwf (le_refl 1)
      (le_refl 1)
    refine ⟨?_, fun d k hrun => ?_, fun hnone => ?_⟩
    · rw [hres]
      exact longestStreakLoop_attained (completedOn entries habitId) rest first 1 1 hP hwf
        (le_refl 1) ⟨first, hstart, rfl⟩ ⟨first, hstart⟩
    · rw [hres]
      have hrun2 : ∀ i, i < k → daysBack d i ∈ first :: rest := fun i hi =>
        hL ▸ (hmem (daysBack d i)).mpr (hrun i hi)
      by_cases hd : d = first
      · subst hd
        have := hC k hrun2
        omega
      · exact hB d k hrun2 hd
    · obtain ⟨e, he, -, hc⟩ := hfirst
      rw [hnone e he] at hc
      exact absurd hc (by decide)

theorem longest_streak_is_max_run_witness :
    (∀ e ∈ streakEntries, e.date.Valid) ∧ (streakEntries.map (fun e => e.date)).Nodup ∧
      (calculateHabitStreak utcZone streakEntries 1 ⟨2024, 1, 5⟩).longest = 5 ∧
      ∀ d k, IsRun streakEntries 1 d k →
        k ≤ (calculateHabitStreak utcZone streakEntries 1 ⟨2024, 1, 5⟩).longest :=
  ⟨by decide, by decide, by decide,
    (longest_streak_is_max_run utcZone streakEntries 1 ⟨2024, 1, 5⟩ (by decide) (by decide)).2.1⟩

/-- C4 (as amended): after `saveEntry(date, data)` the entry stored under
`date` is `date` plus the six fields, each the value `data` supplies when
that value is truthy and its default otherwise (for `habitCompletions`: the
supplied object, or `{}`); the record does not depend on what the store held
before. -/
theorem saveEntry_overwrites_with_defaults (db : DB) (date : Date) (data : EntryData) :
    getEntry (saveEntry db date data) date = some
        { date := date
          mood := if data.mood.truthy then data.mood else JSVal.null
          highlight := if data.highlight.truthy then data.highlight else .prim (.str "")
          journal := if data.journal.truthy then data.journal else .prim (.str "")
          screenTime := if data.screenTime.truthy then data.screenTime else JSVal.null
          weight := if data.weight.truthy then data.weight else JSVal.null
          habitCompletions := some (match data.habitCompletions with
            | some o => o
            | none => []) } ∧
      getEntry (saveEntry db date data) date = getEntry (saveEntry DB.empty date data) date := by
  have h : ∀ s : DB, getEntry (saveEntry s date data) date = some
        { date := date
          mood := if data.mood.truthy then data.mood else JSVal.null
          highlight := if data.highlight.truthy then data.highlight else .prim (.str "")
          journal := if data.journal.truthy then data.journal else .prim (.str "")
          screenTime := if data.screenTime.truthy then data.screenTime else JSVal.null
          weight := if data.weight.truthy then data.weight else JSVal.null
          habitCompletions := some (match data.habitCompletions with
            | some o => o
            | none => []) } := by
    intro s
    simp only [getEntry, saveEntry]
    rw [Store.get_put_eq Entry.date _ date rfl]
    cases data.habitCompletions <;> rfl
  exact ⟨h db, (h db).trans (h DB.empty).symm⟩

/-- C4 fails as stated: a screen time of `0` supplied by `data` is stored as
`null`, the default, not as the value supplied. -/
theorem saveEntry_drops_zero_screenTime :
    ∃ e, getEntry (saveEntry DB.empty ⟨2024, 1, 1⟩ { screenTime := .prim (.num 0) })
        ⟨2024, 1, 1⟩ = some e ∧
      e.screenTime = JSVal.null ∧ e.screenTime ≠ .prim (.num 0) :=
  ⟨bareEntry ⟨2024, 1, 1⟩ (some []), by decide, by decide, by decide⟩

/-- C5: on a database with a habit or an entry, `importData(exportData())`
fails: the three stores are cleared, then the first `add` (or `put`) of the
loops is placed on a transaction that has finished and throws, so the entries
and the stored preferences are lost.  With one habit, two entries and the
theme `dark` stored, the call leaves no entry and the theme `light`.  Only a
database without habits and entries comes through the round trip. -/
theorem export_import_clears_stores :
    (importData dbSample (exportData dbSample "2024-02-01T09:00:00.000Z") =
          .error (.store .transactionInactive) ∧
        getAllEntries dbSample ≠ [] ∧
        getAllEntries
          (importDataState dbSample (exportData dbSample "2024-02-01T09:00:00.000Z")) = [] ∧
        List.lookup "theme" (getPreferences dbSample) = some (.prim (.str "dark")) ∧
        List.lookup "theme" (getPreferences
          (importDataState dbSample (exportData dbSample "2024-02-01T09:00:00.000Z"))) =
            some (.prim (.str "light"))) ∧
      (∀ (db : DB) (now : String), getHabits db ≠ [] ∨ getAllEntries db ≠ [] →
        importData db (exportData db now) = .error (.store .transactionInactive) ∧
          importDataState db (exportData db now) =
            { db with habits := [], entries := [], preferences := [] }) ∧
      ∀ (db : DB) (now : String), db.WF → getHabits db = [] → getAllEntries db = [] →
        ∃ db1, importData db (exportData db now) = .ok db1 ∧
          importDataState db (exportData db now) = db1 ∧
          getAllEntries db1 = getAllEntries db ∧
          ∀ k, List.lookup k (getPreferences db1) = List.lookup k (getPreferences db) := by
  have hfail : ∀ (db : DB) (now : String), getHabits db ≠ [] ∨ getAllEntries db ≠ [] →
      importData db (exportData db now) = .error (.store .transactionInactive) ∧
        importDataState db (exportData db now) =
          { db with habits := [], entries := [], preferences := [] } := by
    intro db now hne
    refine importData_nonempty db (exportData db now) _ _ rfl rfl ?_
    rcases hne with h | h
    · left
      intro hmap
      exact h (List.map_eq_nil_iff.mp hmap)
    · exact Or.inr h
  have hsample := hfail dbSample "2024-02-01T09:00:00.000Z" (Or.inl (by decide))
  refine ⟨⟨hsample.1, by decide, ?_, by decide, ?_⟩, hfail, ?_⟩
  · rw [hsample.2]
    rfl
  · rw [hsample.2]
    decide
  · intro db now hwf hhabits hentries
    have hexp : (exportData db now).habits = some [] ∧ (exportData db now).entries = some [] := by
      simp only [exportData, hhabits, hentries, List.map_nil, and_self]
    obtain ⟨hok, hstate⟩ := importData_empty db (exportData db now) hexp.1 hexp.2
    refine ⟨_, hok, hstate, ?_, fun k => ?_⟩
    · simp only [getAllEntries] at hentries ⊢
      rw [hentries]
      simp only [exportData, Option.elim, setPreferences_eq]
    · obtain ⟨hord, hget⟩ := setPreferences_cleared { db with habits := [], entries := [] }
        (getPreferences db)
      have hdistinct : (getPreferences db).Pairwise (fun a b => a.1 ≠ b.1) :=
        Obj.pairwise_spread _ _ (by decide)
      have hres : Option.elim (exportData db now).preferences
          { db with habits := [], entries := [], preferences := [] }
          (setPreferences { db with habits := [], entries := [], preferences := [] }) =
          setPreferences { db with habits := [], entries := [], preferences := [] }
            (getPreferences db) := rfl
      rw [hres, lookup_getPreferences _ hord, hget k, Obj.lookup_reverse _ hdistinct]
      cases hl : List.lookup k (getPreferences db) with
      | some v => rfl
      | none =>
        rw [lookup_getPreferences db hwf.2.2] at hl
        simp only [Option.or_eq_none] at hl
        simp [hl.2]

/-- C6: `importData(doc)` on a document with a habit or an entry clears the
three stores and then fails at the first request of its loops, which is
placed on a transaction that has finished: with two habits and one entry in
the document, the stores are left empty.  It succeeds on a document with two
empty lists only, and then the stores of habits and entries are empty and the
stored preference pairs are those of `doc.preferences`. -/
theorem importData_rejects_nonempty_document :
    (importData dbDoneOnce docTwoHabits = .error (.store .transactionInactive) ∧
        importDataState dbDoneOnce docTwoHabits =
          { habits := [], habitKeyGen := 2, entries := [], preferences := [] } ∧
        importData dbDoneOnce docOnlyTheme = .ok
          { habits := [], habitKeyGen := 2, entries := [],
            preferences := [{ key := "theme", value := .prim (.str "dark") }] }) ∧
      (∀ (db : DB) (doc : BackupDoc) (hs : List HabitRecord) (es : List Entry),
        doc.habits = some hs → doc.entries = some es → hs ≠ [] ∨ es ≠ [] →
        importData db doc = .error (.store .transactionInactive) ∧
          importDataState db doc =
            { db with habits := [], entries := [], preferences := [] }) ∧
      ∀ (db db1 : DB) (doc : BackupDoc), importData db doc = .ok db1 →
        doc.habits = some [] ∧ doc.entries = some [] ∧ importDataState db doc = db1 ∧
          getHabits db1 = [] ∧ getAllEntries db1 = [] ∧
          Store.Ordered Pref.key db1.preferences ∧
          ∀ k, (Store.get Pref.key k db1.preferences).map Pref.value =
            Option.elim doc.preferences none (fun prefs => List.lookup k prefs.reverse) := by
  refine ⟨⟨?_, ?_, rfl⟩,
    fun db doc hs es hh he hne => importData_nonempty db doc hs es hh he hne,
    fun db db1 doc hok => ?_⟩
  · exact (importData_nonempty dbDoneOnce docTwoHabits _ _ rfl rfl (Or.inl (by decide))).1
  · rw [(importData_nonempty dbDoneOnce docTwoHabits _ _ rfl rfl (Or.inl (by decide))).2]
    rfl
  · obtain ⟨hh, he⟩ := importData_ok_empty db db1 doc hok
    obtain ⟨hok2, hstate⟩ := importData_empty db doc hh he
    have hdb1 : db1 = Option.elim doc.preferences
        { db with habits := [], entries := [], preferences := [] }
        (setPreferences { db with habits := [], entries := [], preferences := [] }) := by
      rw [hok2] at hok
      exact (Except.ok.inj hok).symm
    refine ⟨hh, he, hstate.trans hdb1.symm, ?_⟩
    rw [hdb1]
    cases doc.preferences with
    | none =>
      refine ⟨rfl, rfl, List.Pairwise.nil, fun k => rfl⟩
    | some prefs =>
      obtain ⟨hord, hget⟩ := setPreferences_cleared { db with habits := [], entries := [] }
        prefs
      refine ⟨?_, ?_, hord, hget⟩
      · simp only [Option.elim, getHabits, setPreferences_eq]
      · simp only [Option.elim, getAllEntries, setPreferences_eq]

/-- C7: `importData(doc)` inserts no habit at all: with the habits
`{id: 5, name: 'Run'}` and `{name: 'Walk'}` in the document the first
`habitsStore.add` is placed on a transaction that has finished and throws, so
neither is stored, under a fresh identity or any other; after a call on any
document that passes the validation the store of habits is empty. -/
theorem importData_stores_no_habit :
    (docTwoHabits.habits = some
          [{ id := some 5, name := "Run", createdAt := "2024-01-01T08:00:00.000Z" },
            { id := none, name := "Walk", createdAt := "2024-01-02T08:00:00.000Z" }] ∧
        importData DB.empty docTwoHabits = .error (.store .transactionInactive) ∧
        getHabits (importDataState DB.empty docTwoHabits) = []) ∧
      ∀ (db : DB) (doc : BackupDoc) (hs : List HabitRecord) (es : List Entry),
        doc.habits = some hs → doc.entries = some es →
        getHabits (importDataState db doc) = [] ∧
          (hs ≠ [] → importData db doc = .error (.store .transactionInactive)) := by
  refine ⟨⟨rfl, ?_, ?_⟩, fun db doc hs es hh he => ⟨?_, fun hne => ?_⟩⟩
  · exact (importData_nonempty DB.empty docTwoHabits _ _ rfl rfl (Or.inl (by decide))).1
  · rw [(importData_nonempty DB.empty docTwoHabits _ _ rfl rfl (Or.inl (by decide))).2]
    rfl
  · by_cases hne : hs ≠ [] ∨ es ≠ []
    · rw [(importData_nonempty db doc hs es hh he hne).2]
      rfl
    · simp only [not_or, not_not] at hne
      rw [hne.1] at hh
      rw [hne.2] at he
      rw [(importData_empty db doc hh he).2]
      cases doc.preferences with
      | none => rfl
      | some prefs => simp only [Option.elim, getHabits, setPreferences_eq]
  · exact (importData_nonempty db doc hs es hh he (Or.inl hne)).1

/-- C8: `importData(doc)` fails with its own error exactly when `doc.habits`
or `doc.entries` is absent; every other failure is that of a store request (a
request of the loops, which a list that is not empty leads to), so when no
store request fails the call fails in no other case; two empty lists are
accepted, and leaving `doc.preferences` out changes nothing to whether the
call fails. -/
theorem importData_fails_iff_absent (db : DB) (doc : BackupDoc) :
    (importData db doc = .error .invalidFormat ↔
        (doc.habits = none ∨ doc.entries = none)) ∧
      ((∃ e, importData db doc = .error (.store e)) ↔
        ∃ hs es, doc.habits = some hs ∧ doc.entries = some es ∧ (hs ≠ [] ∨ es ≠ [])) ∧
      ((∀ e, importData db doc ≠ .error (.store e)) →
        ((∃ e, importData db doc = .error e) ↔ (doc.habits = none ∨ doc.entries = none))) ∧
      (∃ db1, importData db { doc with habits := some [], entries := some [] } = .ok db1) ∧
      ((∃ e, importData db { doc with preferences := none } = .error e) ↔
        (∃ e, importData db doc = .error e)) := by
  have hinv : importData db doc = .error .invalidFormat ↔
      (doc.habits = none ∨ doc.entries = none) := by
    refine ⟨fun herr => ?_, fun h => (importData_invalid db doc h).1⟩
    cases hh : doc.habits with
    | none => exact Or.inl rfl
    | some hs =>
      cases he : doc.entries with
      | none => exact Or.inr rfl
      | some es =>
        by_cases hne : hs ≠ [] ∨ es ≠ []
        · rw [(importData_nonempty db doc hs es hh he hne).1] at herr
          cases herr
        · simp only [not_or, not_not] at hne
          rw [hne.1] at hh
          rw [hne.2] at he
          rw [(importData_empty db doc hh he).1] at herr
          cases herr
  have hstore : (∃ e, importData db doc = .error (.store e)) ↔
      ∃ hs es, doc.habits = some hs ∧ doc.entries = some es ∧ (hs ≠ [] ∨ es ≠ []) := by
    refine ⟨fun ⟨e, herr⟩ => ?_, fun ⟨hs, es, hh, he, hne⟩ =>
      ⟨_, (importData_nonempty db doc hs es hh he hne).1⟩⟩
    cases hh : doc.habits with
    | none =>
      rw [(importData_invalid db doc (Or.inl hh)).1] at herr
      cases herr
    | some hs =>
      cases he : doc.entries with
      | none =>
        rw [(importData_invalid db doc (Or.inr he)).1] at herr
        cases herr
      | some es =>
        by_cases hne : hs ≠ [] ∨ es ≠ []
        · exact ⟨hs, es, rfl, rfl, hne⟩
        · simp only [not_or, not_not] at hne
          rw [hne.1] at hh
          rw [hne.2] at he
          rw [(importData_empty db doc hh he).1] at herr
          cases herr
  have hfails : ∀ doc1 : BackupDoc, (∃ e, importData db doc1 = .error e) ↔
      (doc1.habits ≠ some [] ∨ doc1.entries ≠ some []) := by
    intro doc1
    constructor
    · rintro ⟨e, herr⟩
      by_contra hcon
      simp only [not_or, not_not] at hcon
      rw [(importData_empty db doc1 hcon.1 hcon.2).1] at herr
      cases herr
    · intro hne
      by_contra hcon
      cases hres : importData db doc1 with
      | error e => exact hcon ⟨e, hres⟩
      | ok db1 =>
        obtain ⟨hh, he⟩ := importData_ok_empty db db1 doc1 hres
        rcases hne with h | h
        · exact h hh
        · exact h he
  refine ⟨hinv, hstore, fun hnostore => ⟨fun ⟨e, he⟩ => ?_, fun h => ⟨_, hinv.mpr h⟩⟩, ?_, ?_⟩
  · cases e with
    | invalidFormat => exact hinv.mp he
    | store e1 => exact absurd he (hnostore e1)
  · exact ⟨_, (importData_empty db { doc with habits := some [], entries := some [] }
      rfl rfl).1⟩
  · rw [hfails, hfails]

/-- C9: `getPreferences()` returns the defaults overlaid with the stored
pairs: at every key the stored value when the key has a stored pair and the
default value otherwise, so every default key is present; on the empty
collection it is the default map itself. -/
theorem getPreferences_defaults_overlaid (db : DB)
    (h : Store.Ordered Pref.key db.preferences) :
    (∀ k, List.lookup k (getPreferences db) =
        match Store.get Pref.key k db.preferences with
        | some p => some p.value
        | none => List.lookup k defaultPreferences) ∧
      (∀ k, Obj.has defaultPreferences k = true → Obj.has (getPreferences db) k = true) ∧
      getPreferences DB.empty = defaultPreferences := by
  have hlook : ∀ k, List.lookup k (getPreferences db) =
      match Store.get Pref.key k db.preferences with
      | some p => some p.value
      | none => List.lookup k defaultPreferences := by
    intro k
    rw [lookup_getPreferences db h k]
    cases Store.get Pref.key k db.preferences <;> rfl
  refine ⟨hlook, fun k hk => ?_, rfl⟩
  rw [Obj.has_eq_isSome] at hk ⊢
  rw [hlook k]
  cases Store.get Pref.key k db.preferences with
  | none => exact hk
  | some p => rfl

theorem getPreferences_defaults_overlaid_witness :
    Store.Ordered Pref.key dbDarkTheme.preferences ∧
      List.lookup "theme" (getPreferences dbDarkTheme) = some (.prim (.str "dark")) ∧
      List.lookup "userName" (getPreferences dbDarkTheme) = some (.prim (.str "")) :=
  ⟨List.pairwise_singleton _ _,
    ((getPreferences_defaults_overlaid dbDarkTheme (List.pairwise_singleton _ _)).1
      "theme").trans (by decide),
    ((getPreferences_defaults_overlaid dbDarkTheme (List.pairwise_singleton _ _)).1
      "userName").trans (by decide)⟩

/-- C10: after `setPreference(k, v)` the map returned by `getPreferences()`
has `v` at `k` and its former value at every other key; on the empty store,
after `setPreference('theme', 'dark')`, it is the default map with `theme`
set to `'dark'`. -/
theorem setPreference_frame (db : DB) (h : Store.Ordered Pref.key db.preferences)
    (k : String) (v : JSVal) :
    List.lookup k (getPreferences (setPreference db k v)) = some v ∧
      (∀ k1, k1 ≠ k → List.lookup k1 (getPreferences (setPreference db k v)) =
        List.lookup k1 (getPreferences db)) ∧
      getPreferences (setPreference DB.empty "theme" (.prim (.str "dark"))) =
        [ ("showScreenTime", .prim (.bool false)),
          ("showWeight", .prim (.bool false)),
          ("showHabits", .prim (.bool false)),
          ("promptMoodOnOpen", .prim (.bool true)),
          ("userName", .prim (.str "")),
          ("topHabits", .arr [.null, .null, .null]),
          ("theme", .prim (.str "dark")),
          ("habitOrder", .arr []) ] := by
  have hord : Store.Ordered Pref.key (setPreference db k v).preferences :=
    Store.ordered_put Pref.key _ _ h
  refine ⟨?_, fun k1 hk1 => ?_, by decide⟩
  · rw [lookup_getPreferences _ hord]
    simp only [setPreference]
    rw [Store.get_put_eq Pref.key _ k rfl]
    rfl
  · rw [lookup_getPreferences _ hord, lookup_getPreferences _ h]
    simp only [setPreference]
    rw [Store.get_put_of_ne Pref.key _ k1 (fun heq => hk1 heq.symm)]

theorem setPreference_frame_witness :
    Store.Ordered Pref.key dbDarkTheme.preferences ∧
      List.lookup "theme"
        (getPreferences (setPreference dbDarkTheme "theme" (.prim (.str "light")))) =
          some (.prim (.str "light")) :=
  ⟨List.pairwise_singleton _ _,
    (setPreference_frame dbDarkTheme (List.pairwise_singleton _ _) "theme"
      (.prim (.str "light"))).1⟩

/-- C11: `saveEntry` is idempotent: a second `saveEntry(date, data)` leaves the
database as the first one left it, and (the store being in key order) exactly
one entry then has that date. -/
theorem saveEntry_idempotent (db : DB) (h : Store.Ordered Entry.date db.entries)
    (date : Date) (data : EntryData) :
    saveEntry (saveEntry db date data) date data = saveEntry db date data ∧
      ((getAllEntries (saveEntry db date data)).filter
        (fun e => decide (e.date = date))).length = 1 := by
  constructor
  · simp only [saveEntry, Store.put_put]
  · simp only [getAllEntries, saveEntry]
    have := Store.filter_put Entry.date
      { date := date
        mood := jsOr data.mood JSVal.null
        highlight := jsOr data.highlight (.prim (.str ""))
        journal := jsOr data.journal (.prim (.str ""))
        screenTime := jsOr data.screenTime JSVal.null
        weight := jsOr data.weight JSVal.null
        habitCompletions := some (data.habitCompletions.getD []) } db.entries h
    simp only [] at this
    rw [this]
    rfl

theorem saveEntry_idempotent_witness :
    Store.Ordered Entry.date dbDoneOnce.entries ∧
      saveEntry (saveEntry dbDoneOnce ⟨2024, 1, 2⟩ { journal := .prim (.str "rain") })
          ⟨2024, 1, 2⟩ { journal := .prim (.str "rain") } =
        saveEntry dbDoneOnce ⟨2024, 1, 2⟩ { journal := .prim (.str "rain") } :=
  ⟨by decide,
    (saveEntry_idempotent dbDoneOnce (by decide) ⟨2024, 1, 2⟩
      { journal := .prim (.str "rain") }).1⟩

/-- C12: at 40 entries in the window, 23 of them with habit 1 completed,
`calculateHabitStats` returns the rate 57, where `round(100 * 23 / 40)` is 58:
the quotient `23 / 40` is rounded to a double before it is multiplied by 100.
The counts are as claimed, and 4 completed of 10 gives the rate 40. -/
theorem calculateHabitStats_rate_23_of_40 :
    calculateHabitStats fortyEntries ⟨2023, 12, 3⟩ 1 =
        { completed := 23, total := 40, rate := 57 } ∧
      percentExact 23 40 = 58 ∧
      calculateHabitStats tenEntries ⟨2023, 12, 3⟩ 1 =
        { completed := 4, total := 10, rate := 40 } := by
  refine ⟨?_, by decide, ?_⟩
  · decide
  · decide

/-- C13 (as amended): after `addHabit(name)` the list returned by
`getHabits()` is the former list and one new record, whose name is `name`
trimmed and whose id is the number of the key generator: one record more than
before has that name, exactly one when no habit had it. -/
theorem addHabit_adds_one_record (db : DB) (hgen : db.KeyGenAhead) (name now : String) :
    ∃ db1, addHabit db name now = .ok (db1, db.habitKeyGen) ∧
      getHabits db1 = getHabits db ++
        [{ id := db.habitKeyGen, name := jsTrim name, createdAt := now }] ∧
      ((getHabits db1).filter (fun h => decide (h.name = jsTrim name))).length =
        ((getHabits db).filter (fun h => decide (h.name = jsTrim name))).length + 1 ∧
      ((∀ h ∈ getHabits db, h.name ≠ jsTrim name) →
        ((getHabits db1).filter (fun h => decide (h.name = jsTrim name))).length = 1) := by
  refine ⟨_, addHabit_ok db hgen name now, rfl, ?_, fun hnone => ?_⟩
  · simp only [getHabits, List.filter_append, List.length_append]
    simp
  · have hnil : (getHabits db).filter (fun h => decide (h.name = jsTrim name)) = [] := by
      rw [List.filter_eq_nil_iff]
      intro h hh
      simpa using hnone h hh
    simp only [getHabits] at hnil
    simp only [getHabits, List.filter_append, List.length_append, hnil]
    simp

theorem addHabit_adds_one_record_witness :
    dbDarkTheme.KeyGenAhead ∧
      ∃ db1, addHabit dbDarkTheme "  Read " "2024-02-01T09:00:00.000Z" = .ok (db1, 1) ∧
        getHabits db1 = [{ id := 1, name := "Read", createdAt := "2024-02-01T09:00:00.000Z" }] :=
  have hgen : dbDarkTheme.KeyGenAhead := by decide
  ⟨hgen, by
    obtain ⟨db1, hok, hhabits, -⟩ :=
      addHabit_adds_one_record dbDarkTheme hgen "  Read " "2024-02-01T09:00:00.000Z"
    exact ⟨db1, hok, hhabits.trans (by decide)⟩⟩

/-- C13 fails as stated: the store already holding a habit named `Read`,
after `addHabit(' Read ')` two records of `getHabits()` have the trimmed
name. -/
theorem addHabit_duplicates_name :
    ∃ db1 id, addHabit dbDoneOnce " Read " "2024-02-01T09:00:00.000Z" = .ok (db1, id) ∧
      ((getHabits db1).filter (fun h => decide (h.name = jsTrim " Read "))).length = 2 :=
  ⟨_, _, rfl, by decide⟩

/-- C14: `updateHabit(id, name)` fails and leaves the database unchanged when
no habit has that id; otherwise it succeeds, and the database differs only in
that the habit with that id has the trimmed name. -/
theorem updateHabit_renames_only (db : DB) (hord : Store.Ordered Habit.id db.habits)
    (hgen : db.KeyGenAhead) (id : Nat) (name : String) :
    ((∀ h ∈ getHabits db, h.id ≠ id) → updateHabit db id name = (db, .error .notFound)) ∧
      ((∃ h ∈ getHabits db, h.id = id) →
        updateHabit db id name =
          ({ db with
             habits := db.habits.map
               (fun h => if h.id = id then { h with name := jsTrim name } else h) },
            .ok id)) := by
  constructor
  · intro hnone
    have hget : Store.get Habit.id id db.habits = none :=
      (Store.get_eq_none Habit.id id db.habits).mpr hnone
    simp only [updateHabit, hget]
  · rintro ⟨h0, hmem0, hid0⟩
    cases hget : Store.get Habit.id id db.habits with
    | none => exact absurd hid0 ((Store.get_eq_none Habit.id id db.habits).mp hget h0 hmem0)
    | some habit =>
      obtain ⟨hmem, hid⟩ := Store.get_eq_some Habit.id id db.habits habit hget
      have hput := Store.put_eq_map Habit.id { habit with name := jsTrim name } db.habits hord
        ⟨habit, hmem, rfl⟩
      have hmap : db.habits.map (fun x => if x.id = habit.id then
            ({ habit with name := jsTrim name } : Habit) else x) =
          db.habits.map (fun h => if h.id = id then { h with name := jsTrim name } else h) := by
        apply List.map_congr_left
        intro y hy
        by_cases hyid : y.id = id
        · have : y = habit := Store.eq_of_key_eq Habit.id db.habits hord y habit hy hmem
            (hyid.trans hid.symm)
          subst this
          simp only [hyid, hid, if_true]
        · have hyid2 : ¬ y.id = habit.id := fun h => hyid (h.trans hid)
          simp only [hyid, hyid2, if_false]
      have hk : max db.habitKeyGen (habit.id + 1) = db.habitKeyGen :=
        max_eq_left (hgen habit hmem)
      simp only [updateHabit, hget]
      simp only [] at hput
      rw [hput, hmap, hk, hid]

theorem updateHabit_renames_only_witness :
    Store.Ordered Habit.id dbDoneOnce.habits ∧ dbDoneOnce.KeyGenAhead ∧
      (∃ h ∈ getHabits dbDoneOnce, h.id = 1) ∧
      getHabits (updateHabit dbDoneOnce 1 " Write ").1 =
        [{ id := 1, name := "Write", createdAt := "2024-01-01T08:00:00.000Z" }] :=
  have hex : ∃ h ∈ getHabits dbDoneOnce, h.id = 1 := by decide
  ⟨by decide, by decide, hex, by
    rw [(updateHabit_renames_only dbDoneOnce (by decide) (by decide) 1 " Write ").2 hex]
    decide⟩

/-- C15: with distinct entry dates, `getMoodTrend` (`getWeightTrend`) returns
exactly one pair `{date, mood}` (`{date, weight}`) for each entry dated on or
after the cutoff whose mood (weight) is neither `null` nor `undefined`, and no
other pair, in strictly ascending order of date; in the mood scenario it returns
the two pairs with 2024-01-01 first. -/
theorem trends_filtered_and_sorted (entries : List Entry) (cutoffStr : Date)
    (hdistinct : (entries.map (fun e => e.date)).Nodup) :
    ((getMoodTrend entries cutoffStr).Perm
        ((entries.filter (fun e => decide (cutoffStr ≤ e.date) &&
            (e.mood != JSVal.null && e.mood != JSVal.undefined))).map
          (fun e => { date := e.date, mood := e.mood })) ∧
      (getMoodTrend entries cutoffStr).Pairwise (fun a b => a.date < b.date)) ∧
    ((getWeightTrend entries cutoffStr).Perm
        ((entries.filter (fun e => decide (cutoffStr ≤ e.date) &&
            (e.weight != JSVal.null && e.weight != JSVal.undefined))).map
          (fun e => { date := e.date, weight := e.weight })) ∧
      (getWeightTrend entries cutoffStr).Pairwise (fun a b => a.date < b.date)) ∧
    getMoodTrend moodEntries ⟨2023, 12, 3⟩ =
      [{ date := ⟨2024, 1, 1⟩, mood := .prim (.num 5) },
        { date := ⟨2024, 1, 2⟩, mood := .prim (.num 3) }] := by
  have hsub : ∀ p : Entry → Bool, ((entries.filter p).map (fun e => e.date)).Nodup :=
    fun p => hdistinct.sublist ((List.filter_sublist _).map _)
  refine ⟨⟨List.perm_insertionSort _ _, ?_⟩, ⟨List.perm_insertionSort _ _, ?_⟩, by decide⟩
  · apply insertionSort_strict MoodPoint.date
    rw [List.map_map]
    exact hsub _
  · apply insertionSort_strict WeightPoint.date
    rw [List.map_map]
    exact hsub _

theorem trends_filtered_and_sorted_witness :
    (moodEntries.map (fun e => e.date)).Nodup ∧
      (getMoodTrend moodEntries ⟨2024, 1, 2⟩).Perm
        [{ date := ⟨2024, 1, 2⟩, mood := .prim (.num 3) }] :=
  ⟨by decide,
    (trends_filtered_and_sorted moodEntries ⟨2024, 1, 2⟩ (by decide)).1.1.trans
      (by decide)⟩

/-- C16: `getMostConsistentHabits()` returns at most 3 pairs `{habit, rate}`,
each of a stored habit with its rate of `calculateHabitStats`, which is above
0; they are in non-increasing order of rate, pairs of one rate standing in the
order of `getHabits()`; a habit left out has rate 0 or a rate no greater than
that of each returned habit. -/
theorem mostConsistentHabits_top3 (habits : List Habit) (entries : List Entry)
    (cutoffStr : Date) :
    (getMostConsistentHabits habits entries cutoffStr).length ≤ 3 ∧
      (∀ p ∈ getMostConsistentHabits habits entries cutoffStr, p.habit ∈ habits ∧
        p.rate = (calculateHabitStats entries cutoffStr p.habit.id).rate ∧ 0 < p.rate) ∧
      (getMostConsistentHabits habits entries cutoffStr).Pairwise
        (fun a b => b.rate ≤ a.rate) ∧
      (∀ r, ((getMostConsistentHabits habits entries cutoffStr).filter
          (fun p => decide (p.rate = r))) <+:
        ((habits.map (fun habit => ({ habit := habit, rate :=
            (calculateHabitStats entries cutoffStr habit.id).rate } : HabitRate))).filter
          (fun p => decide (p.rate = r)))) ∧
      (∀ h ∈ habits,
        ({ habit := h, rate := (calculateHabitStats entries cutoffStr h.id).rate } :
          HabitRate) ∉ getMostConsistentHabits habits entries cutoffStr →
        (calculateHabitStats entries cutoffStr h.id).rate = 0 ∨
          ∀ p ∈ getMostConsistentHabits habits entries cutoffStr,
            (calculateHabitStats entries cutoffStr h.id).rate ≤ p.rate) := by
  have hperm := List.perm_insertionSort (fun a b : HabitRate => b.rate ≤ a.rate)
    ((habits.map (fun habit => ({ habit := habit, rate :=
      (calculateHabitStats entries cutoffStr habit.id).rate } : HabitRate))).filter
        (fun h => decide (0 < h.rate)))
  have hsorted := sorted_insertionSort_rate
    ((habits.map (fun habit => ({ habit := habit, rate :=
      (calculateHabitStats entries cutoffStr habit.id).rate } : HabitRate))).filter
        (fun h => decide (0 < h.rate)))
  refine ⟨?_, fun p hp => ?_, ?_, fun r => ?_, fun h hh hout => ?_⟩
  · simp only [getMostConsistentHabits, List.length_take]
    exact min_le_left _ _
  · have hp2 := hperm.mem_iff.mp (List.mem_of_mem_take hp)
    obtain ⟨hp3, hpos⟩ := List.mem_filter.mp hp2
    obtain ⟨habit, hmem, rfl⟩ := List.mem_map.mp hp3
    exact ⟨hmem, rfl, by simpa using hpos⟩
  · exact hsorted.sublist (List.take_sublist _ _)
  · have hpre : ((getMostConsistentHabits habits entries cutoffStr).filter
        (fun p => decide (p.rate = r))) <+:
        (((habits.map (fun habit => ({ habit := habit, rate :=
          (calculateHabitStats entries cutoffStr habit.id).rate } : HabitRate))).filter
            (fun h => decide (0 < h.rate))).insertionSort
              (fun a b => b.rate ≤ a.rate)).filter (fun p => decide (p.rate = r)) :=
      (List.take_prefix 3 _).filter _
    rw [filter_insertionSort_rate, List.filter_filter] at hpre
    refine hpre.trans ?_
    rcases Nat.eq_zero_or_pos r with h0 | h0
    · have hnil : (habits.map (fun habit => ({ habit := habit, rate :=
          (calculateHabitStats entries cutoffStr habit.id).rate } : HabitRate))).filter
            (fun a => decide (a.rate = r) && decide (0 < a.rate)) = [] := by
        rw [List.filter_eq_nil_iff]
        intro a _
        simp only [Bool.and_eq_true, decide_eq_true_eq, not_and]
        omega
      rw [hnil]
      exact List.nil_prefix
    · have heq : (fun a : HabitRate => decide (a.rate = r) && decide (0 < a.rate)) =
          (fun p => decide (p.rate = r)) := by
        funext a
        by_cases ha : a.rate = r
        · simp [ha, h0]
        · simp [ha]
      rw [heq]
  · rcases Nat.eq_zero_or_pos (calculateHabitStats entries cutoffStr h.id).rate with h0 | h0
    · exact Or.inl h0
    · right
      intro p hp
      have hin : ({ habit := h, rate := (calculateHabitStats entries cutoffStr h.id).rate } :
          HabitRate) ∈ ((habits.map (fun habit => ({ habit := habit, rate :=
            (calculateHabitStats entries cutoffStr habit.id).rate } : HabitRate))).filter
              (fun h => decide (0 < h.rate))).insertionSort (fun a b => b.rate ≤ a.rate) := by
        rw [hperm.mem_iff, List.mem_filter]
        exact ⟨List.mem_map.mpr ⟨h, hh, rfl⟩, by simpa using h0⟩
      rw [← List.take_append_drop 3 (List.insertionSort _ _)] at hin hsorted
      rcases List.mem_append.mp hin with hin1 | hin2
      · exact absurd hin1 hout
      · exact (List.pairwise_append.mp hsorted).2.2 p hp _ hin2

/-- C17: at 40 entries, 23 of them with a journal, `getJournalConsistency()`
returns the rate 57, where `round(100 * 23 / 40)` is 58: the quotient `23 / 40`
is rounded to a double before it is multiplied by 100.  The other parts hold on
every list of entries whose journals are strings or falsy (on any other list
`journal.trim()` throws): `total` is the number of entries, `journaled` the
number of entries whose journal is not empty after trimming, `totalWords` the
sum over these of the number of maximal runs of non-white-space characters,
and the rate of an empty list is 0. -/
theorem getJournalConsistency_rate_23_of_40 :
    (getJournalConsistency fortyEntries = .ok ⟨40, 23, 57, 46, 23⟩ ∧
        percentExact 23 40 = 58) ∧
      ∀ entries : List Entry,
        (getJournalConsistency entries = .error .typeError ∧
          ∃ e ∈ entries, e.journalOk = false) ∨
        ∃ stats, getJournalConsistency entries = .ok stats ∧
          stats.total = entries.length ∧
          stats.journaled = (entries.filter (fun e => e.hasJournalText)).length ∧
          stats.totalWords = ((entries.filter (fun e => e.hasJournalText)).map
            (fun e => countRuns (journalText e))).sum ∧
          (0 < stats.total ∨ stats.rate = 0) := by
  refine ⟨⟨?_, by decide⟩, fun entries => ?_⟩
  · have hok : fortyEntries.all (fun e => e.journalOk) = true := by decide
    have hstats : ∀ stats, getJournalConsistency fortyEntries = .ok stats →
        stats = ⟨40, 23, 57, 46, 23⟩ := by
      intro stats hs
      unfold getJournalConsistency at hs
      rw [if_pos hok] at hs
      cases hs
      decide
    exact (show ∃ stats, getJournalConsistency fortyEntries = .ok stats from
      ⟨_, by unfold getJournalConsistency; rw [if_pos hok]⟩).elim
        (fun stats hs => by rw [hs, hstats stats hs])
  by_cases hok : entries.all (fun e => e.journalOk) = true
  · right
    have hfilter : entries.filter (fun e => e.journaled) =
        entries.filter (fun e => e.hasJournalText) := by
      apply List.filter_congr
      intro e he
      exact journaled_eq_hasJournalText e (List.all_eq_true.mp hok e he)
    refine ⟨_, by unfold getJournalConsistency; rw [if_pos hok], rfl, ?_, ?_, ?_⟩
    · dsimp only
      rw [hfilter]
    · dsimp only
      rw [hfilter, foldl_add_eq_sum, Nat.zero_add]
      congr 1
      apply List.map_congr_left
      intro e _
      exact wordCount_eq_countRuns _
    · dsimp only
      rcases Nat.eq_zero_or_pos entries.length with h0 | h0
      · right
        rw [if_neg (by omega)]
      · exact Or.inl h0
  · left
    refine ⟨by unfold getJournalConsistency; rw [if_neg hok], ?_⟩
    simpa using hok

/-- C18: on a host in the zone America/New_York, with habit 1 completed on
2024-11-02 and on 2024-11-04 (distinct canonical dates) and today 2024-11-04,
`calculateHabitStreak` returns `{current: 2, longest: 1}`: `setDate` steps
`checkDate` in local time, and across the end of daylight-saving time it goes
from 2024-11-04 to 2024-11-02.  On a host whose zone keeps one offset from
UTC, `current <= longest` for all entries with canonical dates. -/
theorem streak_current_exceeds_longest :
    ((∀ e ∈ dstEntries, e.date.Valid) ∧ (dstEntries.map (fun e => e.date)).Nodup ∧
      stepBack newYorkZone ⟨2024, 11, 4⟩ = ⟨2024, 11, 2⟩ ∧
      calculateHabitStreak newYorkZone dstEntries 1 ⟨2024, 11, 4⟩ =
        { current := 2, longest := 1 }) ∧
      ∀ (zone : TimeZone) (entries : List Entry) (habitId : Nat) (today : Date),
        zone.Fixed → (∀ e ∈ entries, e.date.Valid) →
        (calculateHabitStreak zone entries habitId today).current ≤
          (calculateHabitStreak zone entries habitId today).longest := by
  refine ⟨⟨by decide, by decide, by decide, by decide⟩, ?_⟩
  intro zone entries habitId today hz hvalid
  exact current_le_longest_fixed zone hz entries habitId today hvalid

/-- C19: when `doc.habits` or `doc.entries` is absent, `importData(doc)` fails
with its format error and leaves the database exactly as it was; when it
succeeds the database it leaves is the one it returns. -/
theorem importData_invalid_leaves_store (db : DB) (doc : BackupDoc)
    (h : doc.habits = none ∨ doc.entries = none) :
    importData db doc = .error .invalidFormat ∧ importDataState db doc = db ∧
      ∀ db1 doc1, importData db doc1 = .ok db1 → importDataState db doc1 = db1 := by
  refine ⟨?_, ?_, fun db1 doc1 hok => ?_⟩
  · rcases h with h | h
    · simp only [importData, h]
    · cases hh : doc.habits <;> simp only [importData, h, hh]
  · rcases h with h | h
    · simp only [importDataState, h]
    · cases hh : doc.habits <;> simp only [importDataState, h, hh]
  · obtain ⟨hh, he⟩ := importData_ok_empty db db1 doc1 hok
    obtain ⟨hok2, hstate⟩ := importData_empty db doc1 hh he
    rw [hok2] at hok
    rw [hstate]
    exact Except.ok.inj hok

theorem importData_invalid_leaves_store_witness :
    (docNoHabits.habits = none ∨ docNoHabits.entries = none) ∧
      importData dbSample docNoHabits = .error .invalidFormat ∧
      importDataState dbSample docNoHabits = dbSample :=
  ⟨Or.inl rfl, (importData_invalid_leaves_store dbSample docNoHabits (Or.inl rfl)).1,
    (importData_invalid_leaves_store dbSample docNoHabits (Or.inl rfl)).2.1⟩

/-- C20: `deleteHabit(id)` changes nothing but what the cascade requires: the
habits lose only the record with that id, the entries keep their dates (in
order), each entry keeps its mood, highlight, journal, screenTime and weight
and the value of every `habitCompletions` key other than `id`, and the
preferences and the key generator are unchanged. -/
theorem deleteHabit_frame (db : DB) (id : Nat) :
    getHabits (deleteHabit db id) = (getHabits db).filter (fun h => decide (h.id ≠ id)) ∧
      (getAllEntries (deleteHabit db id)).map (fun e => e.date) =
        (getAllEntries db).map (fun e => e.date) ∧
      List.Forall₂ (fun e e1 => e1.date = e.date ∧ e1.mood = e.mood ∧
          e1.highlight = e.highlight ∧ e1.journal = e.journal ∧
          e1.screenTime = e.screenTime ∧ e1.weight = e.weight ∧
          e1.habitCompletions.isSome = e.habitCompletions.isSome ∧
          ∀ k, k ≠ propKey id → List.lookup k (e1.habitCompletions.getD []) =
            List.lookup k (e.habitCompletions.getD []))
        (getAllEntries db) (getAllEntries (deleteHabit db id)) ∧
      (deleteHabit db id).preferences = db.preferences ∧
      (deleteHabit db id).habitKeyGen = db.habitKeyGen := by
  refine ⟨?_, ?_, ?_, rfl, rfl⟩
  · simp only [getHabits, deleteHabit, removeHabitFromEntries, Store.delete]
    congr 1
    funext h
    simp
  · simp only [getAllEntries, deleteHabit, removeHabitFromEntries, List.map_map]
    apply List.map_congr_left
    intro e _
    simp only [Function.comp]
    cases hc : e.habitCompletions with
    | none => rfl
    | some o =>
      simp only []
      split_ifs <;> rfl
  · simp only [getAllEntries, deleteHabit, removeHabitFromEntries]
    apply forall₂_map_right
    intro e _
    cases hc : e.habitCompletions with
    | none =>
      dsimp only
      exact ⟨rfl, rfl, rfl, rfl, rfl, rfl, by rw [hc], fun _ _ => by rw [hc]⟩
    | some o =>
      dsimp only
      split_ifs with ht
      · refine ⟨rfl, rfl, rfl, rfl, rfl, rfl, rfl, fun k hk => ?_⟩
        simp only [Option.getD_some]
        exact Obj.lookup_delete_of_ne o (propKey id) k hk
      · exact ⟨rfl, rfl, rfl, rfl, rfl, rfl, by rw [hc], fun _ _ => by rw [hc]⟩

end LifeTracker
